import Mathlib

/-!
Verification of the generic forest ("Tree") component of the gocore library.

The Go type `Tree[N] = map[N]Tree[N]` is modelled by the nested inductive
`gocore.Tree N`, whose single constructor wraps an association list of
key/subtree pairs.  A Go map is unordered; the association-list order plays
the role of one concrete iteration order, and map equality is the
`subEqv`-based extensional equivalence defined below.  Go's in-place map
mutations (`tr[k] = v`) are modelled by functional update (`setEntry`),
and the `iter.Seq2` sequences produced by the traversals are modelled by
the lists of yielded pairs.
-/

set_option autoImplicit false
set_option linter.unusedSectionVars false
set_option linter.unusedVariables false

namespace gocore

variable {N : Type} [DecidableEq N]

/-- Model of the Go type `Tree[N Node] map[N]Tree[N]` from tree.go. -/
inductive Tree (N : Type) where
  | mk (children : List (N × Tree N)) : Tree N

/-- The association list underlying a tree (the entries of the Go map). -/
def Tree.children : Tree N → List (N × Tree N)
  | .mk cs => cs

/-- Lookup of a key in the association list (Go `tr[n]` with presence check). -/
def lookup' : List (N × Tree N) → N → Option (Tree N)
  | [], _ => none
  | (m, t) :: rest, n => if m = n then some t else lookup' rest n

/-- Key-presence test (Go `_, ok := tr[n]`). -/
def containsKey (cs : List (N × Tree N)) (n : N) : Bool :=
  (lookup' cs n).isSome

/-- Functional model of the Go map store `tr[n] = v`: replace the entry in
place when the key is present, append a new entry otherwise. -/
def setEntry : List (N × Tree N) → N → Tree N → List (N × Tree N)
  | [], n, v => [(n, v)]
  | (m, t) :: rest, n, v => if m = n then (m, v) :: rest else (m, t) :: setEntry rest n v

/-- The keys of the map (one side of the Go `range` over the map). -/
def keysL (cs : List (N × Tree N)) : List N :=
  cs.map Prod.fst

/-- Total number of entries in a nested association list, used as the
termination measure and for the structural induction principle. -/
def sizeL : List (N × Tree N) → Nat
  | [] => 0
  | (_, .mk cs) :: rest => 1 + sizeL cs + sizeL rest

/-- Structural induction over nested association lists. -/
theorem nestedInd {motive : List (N × Tree N) → Prop} (h0 : motive [])
    (h1 : ∀ n cs rest, motive cs → motive rest → motive ((n, Tree.mk cs) :: rest)) :
    ∀ l, motive l := by
  have key : ∀ s l, sizeL l = s → motive l := by
    intro s
    induction s using Nat.strong_induction_on with
    | _ s ih =>
      intro l hs
      match l with
      | [] => exact h0
      | (n, .mk cs) :: rest =>
        apply h1
        · exact ih (sizeL cs) (by subst hs; simp only [sizeL]; omega) cs rfl
        · exact ih (sizeL rest) (by subst hs; simp only [sizeL]; omega) rest rfl
  exact fun l => key (sizeL l) l rfl

/-- Model of `Tree.Add` (tree.go): insert each identity along the path as a
child of the previous one; an absent identity gets a fresh empty subtree,
a present identity keeps its subtree and the insertion continues inside it. -/
def Tree.add : Tree N → List N → Tree N
  | t, [] => t
  | t, n :: rest =>
      Tree.mk (setEntry t.children n (((lookup' t.children n).getD (Tree.mk [])).add rest))

/-- Model of `Tree.push` (tree.go): the list of `(depth, node)` pairs yielded
by the unordered depth-first walk starting at depth `d`. -/
def allFromL (d : Nat) : List (N × Tree N) → List (Nat × N)
  | [] => []
  | (n, .mk cs) :: rest => (d, n) :: (allFromL (d + 1) cs ++ allFromL d rest)

/-- Model of `Tree.All` (tree.go): the full traversal sequence with roots at
depth 0. -/
def Tree.all (t : Tree N) : List (Nat × N) :=
  allFromL 0 t.children

/-- Model of `Tree.DepthTree`'s loop (tree.go): `depth` starts at 1 and each
child contributes `child.DepthTree() + 1`. -/
def depthTreeL : List (N × Tree N) → Nat → Nat
  | [], d => d
  | (_, .mk cs) :: rest, d => depthTreeL rest (max d (depthTreeL cs 1 + 1))

/-- Model of `Tree.DepthTree` (tree.go). -/
def Tree.depthTree (t : Tree N) : Nat :=
  depthTreeL t.children 1

/-- Model of the scratch-buffer loop of `Tree.Ancestors` (tree.go): walk the
traversal sequence, store each yielded node at index `depth` of the buffer
(`nodes[depth] = n`, modelled by `buf.take d ++ [n]`; entries beyond the
written index never influence the returned `nodes[:depth]`), and return the
buffer prefix below the match.  An exhausted walk returns the empty slice
(Go `nil`). -/
def ancestorsGo (node : N) : List (Nat × N) → List N → List N
  | [], _ => []
  | (d, n) :: rest, buf =>
      if n = node then (buf.take d ++ [n]).take d
      else ancestorsGo node rest (buf.take d ++ [n])

/-- Model of `Tree.Ancestors` (tree.go). -/
def Tree.ancestors (t : Tree N) (node : N) : List N :=
  ancestorsGo node (allFromL 0 t.children) []

/-- Model of the recursive descent of `Tree.FindTree` (tree.go) over the
children of a map: each child map is inspected top-first (`_, ok := tr[node]`
returns the whole child map) and then searched depth-first; the first match
wins. -/
def findTreeL (node : N) : List (N × Tree N) → Option (Tree N)
  | [] => none
  | (_, .mk cs) :: rest =>
      match (if containsKey cs node then some (Tree.mk cs) else findTreeL node cs) with
      | some m => some m
      | none => findTreeL node rest

/-- Model of `Tree.FindTree` (tree.go): note the Go function returns the map
that CONTAINS `node` as a key (the receiver `tr` itself on a top-level hit),
and `nil` (here `none`) when `node` does not occur. -/
def Tree.findTree (t : Tree N) (node : N) : Option (Tree N) :=
  if containsKey t.children node then some t else findTreeL node t.children

/-- Update of one entry of a map: bind `node` to `sub` inside the tree `tp`
(Go `tb[parent][node] = sub` acts on the map `tb[parent]`). -/
def withChild (tp : Tree N) (node : N) (sub : Tree N) : Tree N :=
  Tree.mk (setEntry tp.children node sub)

/-- Descent part of the functional rendering of the aliased mutation
`tb := fam.FindTree(parent); tb[parent][node] = sub` (tree.go `Family`):
the map that `FindTree(parent)` would return is located by the same
depth-first search and rebuilt with `sub` attached under `parent`. -/
def attachL (parent node : N) (sub : Tree N) : List (N × Tree N) → List (N × Tree N)
  | [] => []
  | (m, .mk cs) :: rest =>
      if containsKey cs parent then
        (m, Tree.mk (setEntry cs parent
          (withChild ((lookup' cs parent).getD (Tree.mk [])) node sub))) :: rest
      else
        match findTreeL parent cs with
        | some _ => (m, Tree.mk (attachL parent node sub cs)) :: rest
        | none => (m, Tree.mk cs) :: attachL parent node sub rest

/-- Top level of the aliased-mutation model (see `attachL`). -/
def attach (parent node : N) (sub : Tree N) (t : Tree N) : Tree N :=
  if containsKey t.children parent then
    Tree.mk (setEntry t.children parent
      (withChild ((lookup' t.children parent).getD (Tree.mk [])) node sub))
  else Tree.mk (attachL parent node sub t.children)

/-- Model of `Tree.Family` (tree.go): a top-level hit returns the receiver
itself; otherwise the ancestor chain is rebuilt with `Add` and the subtree of
`node` inside the map found by `FindTree` is grafted under the last ancestor.
The `getD` defaults model Go's nil/zero values and are never reached when
`node` is present below the top level. -/
def Tree.family (t : Tree N) (node : N) : Tree N :=
  if containsKey t.children node then t
  else
    match (t.ancestors node).getLast? with
    | none => Tree.mk []
    | some parent =>
        attach parent node
          ((lookup' ((t.findTree node).getD (Tree.mk [])).children node).getD (Tree.mk []))
          ((Tree.mk [] : Tree N).add (t.ancestors node))

/-- Comparison function used by the model of `Ordered` (tree.go): the Go
`slices.SortFunc(keys, cmp)` postcondition is a sequence nondecreasing under
`cmp`; `mergeSort` with `cmp a b ≤ 0` is one behaviour satisfying it. -/
def leB (cmp : N → N → Int) (a b : N) : Bool :=
  decide (cmp a b ≤ 0)

/-- Model of the generic `Ordered` map walk (tree.go): collect the keys of the
map and sort them with the comparison function. -/
def sortKeys (cmp : N → N → Int) (cs : List (N × Tree N)) : List N :=
  List.mergeSort (keysL cs) (leB cmp)

theorem sizeL_lookup {cs : List (N × Tree N)} {k : N} {t : Tree N}
    (h : lookup' cs k = some t) : sizeL t.children < sizeL cs := by
  induction cs with
  | nil => simp [lookup'] at h
  | cons e rest ih =>
    obtain ⟨m, ⟨c⟩⟩ := e
    by_cases hm : m = k
    · subst hm
      simp [lookup'] at h
      subst h
      simp [sizeL, Tree.children]
      omega
    · simp [lookup', hm] at h
      have := ih h
      simp [sizeL]
      omega

/-- Model of `Tree.order` (tree.go): walk the sorted keys at the current
depth, yield each, and recurse into the key's subtree with its own
independently sorted keys. -/
def orderedGo (cmp : N → N → Int) : Nat → List (N × Tree N) → List N → List (Nat × N)
  | _, _, [] => []
  | d, cs, k :: ks =>
      (d, k) ::
        ((match h : lookup' cs k with
          | some t => orderedGo cmp (d + 1) t.children (sortKeys cmp t.children)
          | none => []) ++ orderedGo cmp d cs ks)
termination_by _ cs ks => (sizeL cs, ks.length)
decreasing_by
  · exact Prod.Lex.left _ _ (sizeL_lookup h)
  · exact Prod.Lex.right _ (by simp)

/-- Model of `Tree.Ordered` (tree.go). -/
def Tree.ordered (t : Tree N) (cmp : N → N → Int) : List (Nat × N) :=
  orderedGo cmp 0 t.children (sortKeys cmp t.children)

/-- Model of the Go `Value` interface (tree.go): `HasParent()` and
`Parent()` of a node's table value. -/
structure Value (N : Type) where
  hasParent : Bool
  parent : N

/-- Table lookup `tb[n]`; a missing key yields the Go zero value, whose
`HasParent()` is false. -/
def lookupV [Inhabited N] (tb : List (N × Value N)) (n : N) : Value N :=
  match tb.find? (fun e => e.1 = n) with
  | some e => e.2
  | none => ⟨false, default⟩

/-- Model of the parent-chain loop of `Table.BuildTree` (tree.go):
`for ; val.HasParent(); val = tb[val.Parent()]` prepends each parent to the
accumulated path.  The Go loop has no termination guard, so the model carries
explicit fuel; `none` means the loop is still running when the fuel is spent. -/
def parentWalk [Inhabited N] (tb : List (N × Value N)) :
    Nat → Value N → List N → Option (List N)
  | 0, _, _ => none
  | fuel + 1, val, nodes =>
      if val.hasParent then parentWalk tb fuel (lookupV tb val.parent) (val.parent :: nodes)
      else some nodes

/-- Model of `Table.BuildTree` (tree.go): for every table entry, walk the
parent chain to a root and `Add` the resulting path.  `none` propagates a
non-terminating parent walk. -/
def buildTreeGo [Inhabited N] (tb : List (N × Value N)) (fuel : Nat) :
    List (N × Value N) → Tree N → Option (Tree N)
  | [], tr => some tr
  | (node, val) :: rest, tr =>
      match parentWalk tb fuel val [node] with
      | some nodes => buildTreeGo tb fuel rest (tr.add nodes)
      | none => none

/-- Model of `Table.BuildTree` (tree.go), entry point. -/
def buildTree [Inhabited N] (fuel : Nat) (tb : List (N × Value N)) : Option (Tree N) :=
  buildTreeGo tb fuel tb (Tree.mk [])

/-! Derived enumerations used to state the claims. -/

/-- The multiset of node identities of a forest, in traversal order (the
`N` components yielded by `Tree.All`). -/
def nodesL : List (N × Tree N) → List N
  | [] => []
  | (n, .mk cs) :: rest => n :: (nodesL cs ++ nodesL rest)

theorem map_snd_allFromL (d : Nat) (cs : List (N × Tree N)) :
    (allFromL d cs).map Prod.snd = nodesL cs := by
  induction cs using nestedInd generalizing d with
  | h0 => simp [allFromL, nodesL]
  | h1 n c rest ihc ihr => simp [allFromL, nodesL, ihc, ihr]

/-- Specification-side definition, following the spec's words for `Depth()`:
the depths of the leaves (identities mapping to an empty sub-forest), roots
at depth 0. -/
def leafDepthsL : Nat → List (N × Tree N) → List Nat
  | _, [] => []
  | d, (_, .mk cs) :: rest =>
      (if cs.isEmpty then [d] else leafDepthsL (d + 1) cs) ++ leafDepthsL d rest
termination_by d cs => sizeL cs
decreasing_by
  · simp only [sizeL]; omega
  · simp only [sizeL]; omega

/-- Specification-side definition: the maximum leaf depth of a forest. -/
def maxLeafDepth (t : Tree N) : Nat :=
  (leafDepthsL 0 t.children).foldr max 0

/-! Depth lemmas. -/

theorem depthTreeL_le (cs : List (N × Tree N)) : ∀ a, a ≤ depthTreeL cs a := by
  induction cs using nestedInd with
  | h0 => intro a; simp [depthTreeL]
  | h1 n c rest ihc ihr =>
    intro a
    calc a ≤ max a (depthTreeL c 1 + 1) := le_max_left _ _
    _ ≤ depthTreeL rest (max a (depthTreeL c 1 + 1)) := ihr _
    _ = depthTreeL ((n, Tree.mk c) :: rest) a := by simp [depthTreeL]

theorem depthTreeL_acc (cs : List (N × Tree N)) :
    ∀ a, 1 ≤ a → depthTreeL cs a = max a (depthTreeL cs 1) := by
  induction cs using nestedInd with
  | h0 => intro a ha; simp [depthTreeL]; omega
  | h1 n c rest ihc ihr =>
    intro a ha
    have hx : 1 ≤ depthTreeL c 1 + 1 := by omega
    have h1' : (1 : Nat) ≤ max a (depthTreeL c 1 + 1) := le_trans ha (le_max_left _ _)
    have h2' : (1 : Nat) ≤ max 1 (depthTreeL c 1 + 1) := le_max_left _ _
    simp only [depthTreeL]
    rw [ihr _ h1', ihr _ h2']
    omega

theorem depthTreeL_cons (n : N) (c rest : List (N × Tree N)) :
    depthTreeL ((n, Tree.mk c) :: rest) 1 =
      max (depthTreeL c 1 + 1) (depthTreeL rest 1) := by
  have hx : (1 : Nat) ≤ max 1 (depthTreeL c 1 + 1) := le_max_left _ _
  simp only [depthTreeL]
  rw [depthTreeL_acc _ _ hx]
  omega

theorem leafDepthsL_shift (cs : List (N × Tree N)) :
    ∀ d, leafDepthsL d cs = (leafDepthsL 0 cs).map (fun x => x + d) := by
  induction cs using nestedInd with
  | h0 => intro d; simp [leafDepthsL]
  | h1 n c rest ihc ihr =>
    intro d
    cases c with
    | nil => simp [leafDepthsL, ihr d, List.isEmpty]
    | cons e c' =>
      simp only [leafDepthsL, List.isEmpty_cons, Bool.false_eq_true, if_false, List.map_append]
      rw [ihc (d + 1), ihr d, ihc 1, List.map_map]
      have hfc : ((fun x => x + d) ∘ fun x => x + 1) = (fun x => x + (d + 1)) := by
        funext x
        simp only [Function.comp]
        omega
      rw [hfc]

theorem leafDepthsL_ne_nil (cs : List (N × Tree N)) (h : cs ≠ []) :
    ∀ d, leafDepthsL d cs ≠ [] := by
  induction cs using nestedInd with
  | h0 => exact absurd rfl h
  | h1 n c rest ihc ihr =>
    intro d
    cases c with
    | nil => simp [leafDepthsL]
    | cons e c' =>
      have := ihc (by simp) (d + 1)
      simp only [leafDepthsL, List.isEmpty]
      simp only [ne_eq, List.append_eq_nil]
      intro ⟨hl, _⟩
      exact this hl

theorem foldr_max_append (l1 l2 : List Nat) :
    (l1 ++ l2).foldr max 0 = max (l1.foldr max 0) (l2.foldr max 0) := by
  induction l1 with
  | nil => simp
  | cons x l ih => simp [ih]; omega

theorem foldr_max_map_add (l : List Nat) (k : Nat) (h : l ≠ []) :
    (l.map (fun x => x + k)).foldr max 0 = l.foldr max 0 + k := by
  induction l with
  | nil => exact absurd rfl h
  | cons x l ih =>
    cases l with
    | nil => simp
    | cons y l' =>
      have := ih (by simp)
      simp only [List.map_cons, List.foldr_cons] at this ⊢
      omega

theorem depthTree_eq_maxLeaf (cs : List (N × Tree N)) (h : cs ≠ []) :
    depthTreeL cs 1 = (leafDepthsL 0 cs).foldr max 0 + 2 := by
  induction cs using nestedInd with
  | h0 => exact absurd rfl h
  | h1 n c rest ihc ihr =>
    rw [depthTreeL_cons]
    have hLD : leafDepthsL 0 ((n, Tree.mk c) :: rest) =
        (if c.isEmpty then [0] else leafDepthsL 1 c) ++ leafDepthsL 0 rest := by
      simp [leafDepthsL]
    rw [hLD, foldr_max_append]
    have hrest : depthTreeL rest 1 = (leafDepthsL 0 rest).foldr max 0 + 2 ∨
        (depthTreeL rest 1 = 1 ∧ leafDepthsL 0 rest = []) := by
      cases rest with
      | nil => right; exact ⟨by simp [depthTreeL], by simp [leafDepthsL]⟩
      | cons r rest' => left; exact ihr (by simp)
    cases c with
    | nil =>
      have hc1 : depthTreeL ([] : List (N × Tree N)) 1 = 1 := by simp [depthTreeL]
      rw [hc1]
      simp only [List.isEmpty_nil, if_true]
      rcases hrest with hr | ⟨h1, h2⟩
      · rw [hr]; simp
      · rw [h1, h2]; simp
    | cons e c' =>
      have hc := ihc (by simp)
      have hnn := leafDepthsL_ne_nil (e :: c') (by simp) 0
      have hsh : (leafDepthsL 1 (e :: c')).foldr max 0 =
          (leafDepthsL 0 (e :: c')).foldr max 0 + 1 := by
        rw [leafDepthsL_shift (e :: c') 1, foldr_max_map_add _ _ hnn]
      rw [hc]
      simp only [List.isEmpty_cons, Bool.false_eq_true, if_false]
      rw [hsh]
      rcases hrest with hr | ⟨h1, h2⟩
      · rw [hr]; omega
      · rw [h1, h2]; simp

/-- The scenario forest of the spec: paths `[A,B,D]`, `[A,C]`, `[A,B,E]`
with `A,B,C,D,E` rendered as `0,1,2,3,4`. -/
def exForest : Tree Nat :=
  ((((Tree.mk [] : Tree Nat).add [0, 1, 3]).add [0, 2]).add [0, 1, 4])

theorem exForest_eq :
    exForest = Tree.mk [(0, Tree.mk [(1, Tree.mk [(3, Tree.mk []), (4, Tree.mk [])]),
      (2, Tree.mk [])])] := by
  simp [exForest, Tree.add, Tree.children, lookup', setEntry]

/-- C1 counterexample: on the forest built from the paths `[A,B,D]`, `[A,C]`,
`[A,B,E]` the code's `DepthTree` returns 4, not the 3 the claim states
(maximum leaf depth 2 plus one). -/
theorem c1_scenario_counterexample :
    exForest.depthTree = 4 ∧ exForest.depthTree ≠ 3 := by
  have h4 : exForest.depthTree = 4 := by
    rw [exForest_eq]
    simp only [Tree.depthTree, Tree.children, depthTreeL]
    omega
  exact ⟨h4, by rw [h4]; omega⟩

/-- C1 amended: `DepthTree` returns the maximum leaf depth plus TWO on every
non-empty forest (its value on the scenario forest is therefore 4, not 3). -/
theorem c1_depth_maxleaf_amended (t : Tree N) (h : t.children ≠ []) :
    t.depthTree = maxLeafDepth t + 2 := by
  obtain ⟨cs⟩ := t
  show depthTreeL cs 1 = (leafDepthsL 0 cs).foldr max 0 + 2
  exact depthTree_eq_maxLeaf cs h

/-- C1 amended, witness at the scenario forest. -/
theorem c1_depth_maxleaf_amended_witness :
    exForest.children ≠ [] ∧ exForest.depthTree = maxLeafDepth exForest + 2 :=
  ⟨by rw [exForest_eq]; simp [Tree.children],
   c1_depth_maxleaf_amended exForest (by rw [exForest_eq]; simp [Tree.children])⟩

/-- C10: the depth computation on the empty forest returns 1, and every
non-empty forest's `DepthTree` value is at least 2. -/
theorem c10_depth_empty_baseline :
    (Tree.mk [] : Tree N).depthTree = 1 ∧
      ∀ t : Tree N, t.children ≠ [] → 2 ≤ t.depthTree := by
  constructor
  · show depthTreeL [] 1 = 1
    simp [depthTreeL]
  · intro t ht
    obtain ⟨cs⟩ := t
    show 2 ≤ depthTreeL cs 1
    match cs, ht with
    | (n, .mk c) :: rest, _ =>
      rw [depthTreeL_cons]
      have := depthTreeL_le c 1
      omega

/-- C10 witness: the scenario forest is non-empty and has depth at least 2. -/
theorem c10_depth_empty_baseline_witness :
    exForest.children ≠ [] ∧ 2 ≤ exForest.depthTree :=
  ⟨by rw [exForest_eq]; simp [Tree.children],
   c10_depth_empty_baseline.2 exForest (by rw [exForest_eq]; simp [Tree.children])⟩

/-- A two-element table whose parent relation is a 2-cycle: node 0's value
names parent 1 and node 1's value names parent 0. -/
def cycTable : List (Nat × Value Nat) :=
  [(0, ⟨true, 1⟩), (1, ⟨true, 0⟩)]

theorem parentWalk_cycTable_none :
    ∀ fuel acc, parentWalk cycTable fuel ⟨true, 0⟩ acc = none ∧
      parentWalk cycTable fuel ⟨true, 1⟩ acc = none := by
  intro fuel
  induction fuel with
  | zero => intro acc; exact ⟨rfl, rfl⟩
  | succ f ih =>
    intro acc
    have h0 : lookupV cycTable 0 = ⟨true, 1⟩ := by simp [lookupV, cycTable]
    have h1 : lookupV cycTable 1 = ⟨true, 0⟩ := by simp [lookupV, cycTable]
    constructor
    · show parentWalk cycTable (f + 1) ⟨true, 0⟩ acc = none
      simp only [parentWalk, if_pos]
      rw [h0]
      exact (ih _).2
    · show parentWalk cycTable (f + 1) ⟨true, 1⟩ acc = none
      simp only [parentWalk, if_pos]
      rw [h1]
      exact (ih _).1

/-- C8: the claim describes the guard the spec requires, but the code has no
visited-set guard at all: on the cyclic table the parent-chain loop of
`Table.BuildTree` never reaches a parentless node, so the build exhausts
every fuel bound instead of detecting the cycle. -/
theorem c8_build_cyclic_diverges : ∀ fuel, buildTree fuel cycTable = none := by
  intro fuel
  have hpw := (parentWalk_cycTable_none fuel [0]).2
  show buildTreeGo cycTable fuel cycTable (Tree.mk []) = none
  simp only [cycTable] at hpw ⊢
  simp only [buildTreeGo]
  rw [hpw]

/-! Chains and well-formedness. -/

/-- Existence of a root-to-node chain in the forest: each identity of the
list is a key one level below the previous one (repeated Go map lookups). -/
def chainb : List (N × Tree N) → List N → Bool
  | _, [] => true
  | cs, n :: rest =>
      match lookup' cs n with
      | some t => chainb t.children rest
      | none => false

/-- Well-formedness inherited from the Go map type: within every children
list the keys are pairwise distinct. -/
def wfb : List (N × Tree N) → Bool
  | [] => true
  | (n, .mk cs) :: rest => !containsKey rest n && wfb cs && wfb rest
termination_by cs => sizeL cs
decreasing_by
  · simp only [sizeL]; omega
  · simp only [sizeL]; omega

theorem mem_of_lookup' {cs : List (N × Tree N)} {n : N} {t : Tree N}
    (h : lookup' cs n = some t) : (n, t) ∈ cs := by
  induction cs with
  | nil => simp [lookup'] at h
  | cons e rest ih =>
    obtain ⟨m, u⟩ := e
    by_cases hm : m = n
    · subst hm
      simp [lookup'] at h
      simp [h]
    · simp [lookup', hm] at h
      simp [ih h]

theorem keysL_cons (m : N) (u : Tree N) (rest : List (N × Tree N)) :
    keysL ((m, u) :: rest) = m :: keysL rest := rfl

theorem containsKey_iff {cs : List (N × Tree N)} {n : N} :
    containsKey cs n = true ↔ n ∈ keysL cs := by
  induction cs with
  | nil => simp [containsKey, lookup', keysL]
  | cons e rest ih =>
    obtain ⟨m, u⟩ := e
    rw [keysL_cons]
    by_cases hm : m = n
    · subst hm
      simp [containsKey, lookup']
    · rw [show containsKey ((m, u) :: rest) n = containsKey rest n from by
        simp [containsKey, lookup', hm]]
      rw [ih]
      constructor
      · exact fun h => List.mem_cons_of_mem _ h
      · intro h
        rcases List.mem_cons.mp h with h | h
        · exact absurd h.symm hm
        · exact h

theorem containsKey_false_iff {cs : List (N × Tree N)} {n : N} :
    containsKey cs n = false ↔ n ∉ keysL cs := by
  rw [← containsKey_iff]
  cases h : containsKey cs n <;> simp

theorem lookup'_none_iff {cs : List (N × Tree N)} {n : N} :
    lookup' cs n = none ↔ n ∉ keysL cs := by
  rw [← containsKey_false_iff]
  simp [containsKey, Option.isSome_iff_ne_none]

theorem lookup'_setEntry_self (cs : List (N × Tree N)) (n : N) (v : Tree N) :
    lookup' (setEntry cs n v) n = some v := by
  induction cs with
  | nil => simp [setEntry, lookup']
  | cons e rest ih =>
    obtain ⟨m, u⟩ := e
    by_cases hm : m = n
    · subst hm; simp [setEntry, lookup']
    · simp [setEntry, hm, lookup', ih]

theorem lookup'_setEntry_ne (cs : List (N × Tree N)) {m n : N} (v : Tree N)
    (h : m ≠ n) : lookup' (setEntry cs n v) m = lookup' cs m := by
  induction cs with
  | nil =>
    simp only [setEntry, lookup']
    rw [if_neg (Ne.symm h)]
  | cons e rest ih =>
    obtain ⟨k, u⟩ := e
    by_cases hk : k = n
    · subst hk
      simp only [setEntry, if_pos rfl, lookup']
      rw [if_neg (Ne.symm h), if_neg (Ne.symm h)]
    · simp only [setEntry, if_neg hk, lookup']
      by_cases hkm : k = m
      · rw [if_pos hkm, if_pos hkm]
      · rw [if_neg hkm, if_neg hkm]
        exact ih

theorem keysL_setEntry_mem (cs : List (N × Tree N)) (n : N) (v : Tree N)
    (h : n ∈ keysL cs) : keysL (setEntry cs n v) = keysL cs := by
  induction cs with
  | nil => simp [keysL] at h
  | cons e rest ih =>
    obtain ⟨m, u⟩ := e
    by_cases hm : m = n
    · subst hm
      simp only [setEntry, if_pos rfl]
      rfl
    · rw [keysL_cons] at h
      rcases List.mem_cons.mp h with h' | h'
      · exact absurd h'.symm hm
      · simp only [setEntry, if_neg hm]
        rw [keysL_cons, keysL_cons, ih h']

theorem keysL_setEntry_not_mem (cs : List (N × Tree N)) (n : N) (v : Tree N)
    (h : n ∉ keysL cs) : keysL (setEntry cs n v) = keysL cs ++ [n] := by
  induction cs with
  | nil => rfl
  | cons e rest ih =>
    obtain ⟨m, u⟩ := e
    rw [keysL_cons] at h
    have hm : m ≠ n := fun he => h (he ▸ List.mem_cons_self m _)
    have hr : n ∉ keysL rest := fun hr => h (List.mem_cons_of_mem _ hr)
    simp only [setEntry, if_neg hm]
    rw [keysL_cons, keysL_cons, ih hr]
    rfl

theorem wfb_cons {n : N} {c rest : List (N × Tree N)} :
    wfb ((n, Tree.mk c) :: rest) = true ↔
      containsKey rest n = false ∧ wfb c = true ∧ wfb rest = true := by
  simp only [wfb]
  simp [Bool.and_eq_true, Bool.not_eq_true', and_assoc]

theorem wfb_sub {cs : List (N × Tree N)} {n : N} {t : Tree N}
    (hw : wfb cs = true) (h : lookup' cs n = some t) : wfb t.children = true := by
  induction cs with
  | nil => simp [lookup'] at h
  | cons e rest ih =>
    obtain ⟨m, ⟨c⟩⟩ := e
    rw [wfb_cons] at hw
    by_cases hm : m = n
    · subst hm
      simp [lookup'] at h
      subst h
      exact hw.2.1
    · simp [lookup', hm] at h
      exact ih hw.2.2 h

theorem wfb_setEntry {cs : List (N × Tree N)} {n : N} {v : Tree N}
    (hw : wfb cs = true) (hv : wfb v.children = true) :
    wfb (setEntry cs n v) = true := by
  induction cs with
  | nil =>
    obtain ⟨vc⟩ := v
    rw [show setEntry ([] : List (N × Tree N)) n (Tree.mk vc) = [(n, Tree.mk vc)] from rfl]
    rw [wfb_cons]
    exact ⟨by simp [containsKey, lookup'], hv, by simp [wfb]⟩
  | cons e rest ih =>
    obtain ⟨m, ⟨c⟩⟩ := e
    rw [wfb_cons] at hw
    by_cases hm : m = n
    · subst hm
      obtain ⟨vc⟩ := v
      rw [show setEntry ((m, Tree.mk c) :: rest) m (Tree.mk vc) =
        (m, Tree.mk vc) :: rest from by simp [setEntry]]
      rw [wfb_cons]
      exact ⟨hw.1, hv, hw.2.2⟩
    · simp only [setEntry, if_neg hm]
      rw [wfb_cons]
      refine ⟨?_, hw.2.1, ih hw.2.2⟩
      have hmr : m ∉ keysL rest := containsKey_false_iff.mp hw.1
      rw [containsKey_false_iff]
      by_cases hn : n ∈ keysL rest
      · rw [keysL_setEntry_mem rest n v hn]
        exact hmr
      · rw [keysL_setEntry_not_mem rest n v hn]
        intro hmem
        rcases List.mem_append.mp hmem with h | h
        · exact hmr h
        · exact hm (List.mem_singleton.mp h)

theorem wfb_add {t : Tree N} (hw : wfb t.children = true) :
    ∀ p : List N, wfb (t.add p).children = true := by
  intro p
  induction p generalizing t with
  | nil => simpa [Tree.add]
  | cons n rest ih =>
    obtain ⟨cs⟩ := t
    rw [show (Tree.mk cs).children = cs from rfl] at hw
    show wfb (setEntry cs n (((lookup' cs n).getD (Tree.mk [])).add rest)) = true
    apply wfb_setEntry hw
    apply ih
    cases hl : lookup' cs n with
    | none =>
      show wfb ([] : List (N × Tree N)) = true
      simp [wfb]
    | some u => exact wfb_sub hw hl

/-! Chain lemmas. -/

theorem chain_nil (cs : List (N × Tree N)) : chainb cs [] = true := rfl

theorem chain_cons {cs : List (N × Tree N)} {n : N} {q : List N} :
    chainb cs (n :: q) = true ↔
      ∃ t, lookup' cs n = some t ∧ chainb t.children q = true := by
  cases hl : lookup' cs n with
  | none => simp [chainb, hl]
  | some t => simp [chainb, hl]

/-- INV2 at the level of chains: the chains of `t.Add(p)` are exactly the old
chains of `t` together with the prefixes of `p`. -/
theorem chain_add (t : Tree N) (p : List N) :
    ∀ q, chainb (t.add p).children q = true ↔
      (chainb t.children q = true ∨ q <+: p) := by
  induction p generalizing t with
  | nil =>
    intro q
    rw [show t.add [] = t from rfl]
    constructor
    · exact fun h => Or.inl h
    · intro h
      rcases h with h | h
      · exact h
      · rw [List.prefix_nil.mp h]
        exact chain_nil _
  | cons n rest ih =>
    intro q
    obtain ⟨cs⟩ := t
    have hadd : (Tree.mk cs).add (n :: rest) =
        Tree.mk (setEntry cs n (((lookup' cs n).getD (Tree.mk [])).add rest)) := rfl
    rw [hadd]
    cases q with
    | nil =>
      simp [chain_nil]
    | cons m qr =>
      rw [show (Tree.mk (setEntry cs n (((lookup' cs n).getD (Tree.mk [])).add rest))).children
        = setEntry cs n (((lookup' cs n).getD (Tree.mk [])).add rest) from rfl]
      by_cases hm : m = n
      · subst hm
        rw [chain_cons]
        have hself := lookup'_setEntry_self cs m (((lookup' cs m).getD (Tree.mk [])).add rest)
        constructor
        · rintro ⟨u, hu, hcu⟩
          rw [hself] at hu
          cases hu
          rw [ih] at hcu
          cases hl : lookup' cs m with
          | some w =>
            rw [hl] at hcu
            rcases hcu with hcu | hcu
            · exact Or.inl (chain_cons.mpr ⟨w, hl, hcu⟩)
            · exact Or.inr (List.cons_prefix_cons.mpr ⟨rfl, hcu⟩)
          | none =>
            rw [hl] at hcu
            rcases hcu with hcu | hcu
            · have hcu : chainb ([] : List (N × Tree N)) qr = true := hcu
              cases qr with
              | nil => exact Or.inr (List.cons_prefix_cons.mpr ⟨rfl, List.nil_prefix⟩)
              | cons x l =>
                rw [chain_cons] at hcu
                obtain ⟨w, hw, _⟩ := hcu
                simp [lookup'] at hw
            · exact Or.inr (List.cons_prefix_cons.mpr ⟨rfl, hcu⟩)
        · intro h
          refine ⟨_, hself, ?_⟩
          rw [ih]
          rcases h with h | h
          · rw [chain_cons] at h
            obtain ⟨u, hu, hcu⟩ := h
            have hu' : lookup' cs m = some u := hu
            rw [hu']
            exact Or.inl hcu
          · exact Or.inr (List.cons_prefix_cons.mp h).2
      · rw [chain_cons, chain_cons]
        rw [lookup'_setEntry_ne cs _ hm]
        constructor
        · rintro ⟨u, hu, hcu⟩
          exact Or.inl ⟨u, hu, hcu⟩
        · intro h
          rcases h with h | h
          · exact h
          · exact absurd (List.cons_prefix_cons.mp h).1 hm

theorem chain_foldl_add (ps : List (List N)) :
    ∀ (t : Tree N) q, chainb (ps.foldl Tree.add t).children q = true ↔
      (chainb t.children q = true ∨ ∃ p ∈ ps, q <+: p) := by
  induction ps with
  | nil => simp
  | cons p ps ih =>
    intro t q
    rw [List.foldl_cons, ih, chain_add]
    constructor
    · intro h
      rcases h with (h | h) | h
      · exact Or.inl h
      · exact Or.inr ⟨p, List.mem_cons_self _ _, h⟩
      · obtain ⟨p', hp', hq⟩ := h
        exact Or.inr ⟨p', List.mem_cons_of_mem _ hp', hq⟩
    · intro h
      rcases h with h | ⟨p', hp', hq⟩
      · exact Or.inl (Or.inl h)
      · rcases List.mem_cons.mp hp' with h | h
        · exact Or.inl (Or.inr (h ▸ hq))
        · exact Or.inr ⟨p', h, hq⟩

/-- C9: `Add(path)` creates an entry (with an empty sub-forest) for each
identity on the path not yet present at its position, reuses the existing
entry otherwise, and leaves already-attached subtrees unchanged: the chains
of the grown forest are exactly the old chains plus the prefixes of the
path, the head entry of the path holds the recursively grown old subtree
(the empty forest when it was absent), and all other top-level entries are
untouched. -/
theorem c9_add_frame (t : Tree N) (path : List N) :
    (∀ q, chainb (t.add path).children q = true ↔
      (chainb t.children q = true ∨ q <+: path)) ∧
    (∀ n rest, path = n :: rest →
      lookup' (t.add path).children n =
        some (((lookup' t.children n).getD (Tree.mk [])).add rest) ∧
      ∀ m, m ≠ n → lookup' (t.add path).children m = lookup' t.children m) := by
  constructor
  · exact chain_add t path
  · intro n rest hp
    subst hp
    obtain ⟨cs⟩ := t
    constructor
    · exact lookup'_setEntry_self cs n _
    · intro m hm
      exact lookup'_setEntry_ne cs _ hm

/-- C9 witness: concrete frame check on the forest `{0: {1: {}}}` grown with
the path `[0, 2]`. -/
theorem c9_add_frame_witness :
    (chainb (((Tree.mk [(0, Tree.mk [(1, Tree.mk [])])] : Tree Nat).add [0, 2]).children)
        [0, 1] = true ↔
      (chainb (Tree.mk [(0, Tree.mk [(1, Tree.mk [])])] : Tree Nat).children [0, 1] = true ∨
        [0, 1] <+: [0, 2])) ∧
    lookup' (((Tree.mk [(0, Tree.mk [(1, Tree.mk [])])] : Tree Nat).add [0, 2]).children) 5 =
      lookup' (Tree.mk [(0, Tree.mk [(1, Tree.mk [])])] : Tree Nat).children 5 :=
  ⟨(c9_add_frame (Tree.mk [(0, Tree.mk [(1, Tree.mk [])])]) [0, 2]).1 [0, 1],
   ((c9_add_frame (Tree.mk [(0, Tree.mk [(1, Tree.mk [])])]) [0, 2]).2 0 [2] rfl).2 5
     (by decide)⟩

/-! Node membership and chain helpers. -/

theorem nodesL_cons (m : N) (c rest : List (N × Tree N)) :
    nodesL ((m, Tree.mk c) :: rest) = m :: (nodesL c ++ nodesL rest) := by
  simp [nodesL]

theorem keysL_subset_nodesL {cs : List (N × Tree N)} {n : N} (h : n ∈ keysL cs) :
    n ∈ nodesL cs := by
  induction cs using nestedInd with
  | h0 => simp [keysL] at h
  | h1 m c rest ihc ihr =>
    rw [keysL_cons] at h
    rw [nodesL_cons]
    rcases List.mem_cons.mp h with h | h
    · exact h ▸ List.mem_cons_self _ _
    · exact List.mem_cons_of_mem _ (List.mem_append.mpr (Or.inr (ihr h)))

theorem chain_mem_keys {cs : List (N × Tree N)} {x : N} {l : List N}
    (hq : chainb cs (x :: l) = true) : x ∈ keysL cs := by
  obtain ⟨t, ht, _⟩ := chain_cons.mp hq
  rw [← containsKey_iff]
  simp [containsKey, ht]

theorem chain_head_eq {m : N} {u : Tree N} {rest : List (N × Tree N)} {l : List N} :
    chainb ((m, u) :: rest) (m :: l) = chainb u.children l := by
  simp [chainb, lookup']

theorem chain_head_ne {m : N} {u : Tree N} {rest : List (N × Tree N)} {x : N}
    {l : List N} (hx : x ≠ m) :
    chainb ((m, u) :: rest) (x :: l) = chainb rest (x :: l) := by
  have hlk : lookup' ((m, u) :: rest) x = lookup' rest x := by
    rw [show lookup' ((m, u) :: rest) x =
      if m = x then some u else lookup' rest x from rfl, if_neg (Ne.symm hx)]
  simp [chainb, hlk]

theorem chain_cons_of_rest {m : N} {u : Tree N} {rest : List (N × Tree N)}
    (hkey : containsKey rest m = false) {q : List N} (hq : chainb rest q = true) :
    chainb ((m, u) :: rest) q = true := by
  cases q with
  | nil => exact chain_nil _
  | cons x l =>
    have hx : x ∈ keysL rest := chain_mem_keys hq
    have hxm : x ≠ m := fun he => (containsKey_false_iff.mp hkey) (he ▸ hx)
    rw [chain_head_ne hxm]
    exact hq

theorem chain_nil_elim {p : List N} {n : N}
    (h : chainb ([] : List (N × Tree N)) (p ++ [n]) = true) : False := by
  cases p with
  | nil => simp [chainb, lookup'] at h
  | cons x l => simp [chainb, lookup'] at h

theorem mem_nodes_iff_chain {cs : List (N × Tree N)} (hw : wfb cs = true) (n : N) :
    n ∈ nodesL cs ↔ ∃ r, chainb cs (r ++ [n]) = true := by
  induction cs using nestedInd with
  | h0 =>
    simp only [nodesL]
    constructor
    · intro h; simp at h
    · rintro ⟨r, hr⟩; exact absurd hr (fun h => chain_nil_elim h)
  | h1 m c rest ihc ihr =>
    rw [wfb_cons] at hw
    obtain ⟨hkey, hwc, hwr⟩ := hw
    rw [nodesL_cons]
    constructor
    · intro h
      rcases List.mem_cons.mp h with h | h
      · subst h
        refine ⟨[], ?_⟩
        rw [List.nil_append, chain_cons]
        exact ⟨Tree.mk c, by simp [lookup'], chain_nil _⟩
      · rcases List.mem_append.mp h with h | h
        · obtain ⟨r, hr⟩ := (ihc hwc).mp h
          refine ⟨m :: r, ?_⟩
          rw [List.cons_append, chain_head_eq]
          exact hr
        · obtain ⟨r, hr⟩ := (ihr hwr).mp h
          exact ⟨r, chain_cons_of_rest hkey hr⟩
    · rintro ⟨r, hr⟩
      cases r with
      | nil =>
        rw [List.nil_append, chain_cons] at hr
        obtain ⟨t, ht, _⟩ := hr
        by_cases hnm : n = m
        · exact hnm ▸ List.mem_cons_self _ _
        · have : lookup' rest n = some t := by
            rw [show lookup' ((m, Tree.mk c) :: rest) n =
              if m = n then some (Tree.mk c) else lookup' rest n from rfl,
              if_neg (Ne.symm hnm)] at ht
            exact ht
          have : n ∈ keysL rest := by
            rw [← containsKey_iff]
            simp [containsKey, this]
          exact List.mem_cons_of_mem _
            (List.mem_append.mpr (Or.inr (keysL_subset_nodesL this)))
      | cons x r' =>
        by_cases hxm : x = m
        · subst hxm
          rw [List.cons_append, chain_head_eq] at hr
          exact List.mem_cons_of_mem _
            (List.mem_append.mpr (Or.inl ((ihc hwc).mpr ⟨r', hr⟩)))
        · rw [List.cons_append, chain_head_ne hxm, ← List.cons_append] at hr
          exact List.mem_cons_of_mem _
            (List.mem_append.mpr (Or.inr ((ihr hwr).mpr ⟨x :: r', hr⟩)))

/-! Unique positions: each identity reachable at a single place (INV1). -/

/-- INV1 as a property: a node identity is reachable through at most one
root-to-node chain. -/
def UniquePosL (cs : List (N × Tree N)) : Prop :=
  ∀ p1 p2 (n : N), chainb cs (p1 ++ [n]) = true → chainb cs (p2 ++ [n]) = true →
    p1 = p2

theorem uniquePos_sub_head {m : N} {c rest : List (N × Tree N)}
    (hu : UniquePosL ((m, Tree.mk c) :: rest)) : UniquePosL c := by
  intro p1 p2 n h1 h2
  have l1 : chainb ((m, Tree.mk c) :: rest) ((m :: p1) ++ [n]) = true := by
    rw [List.cons_append, chain_head_eq]; exact h1
  have l2 : chainb ((m, Tree.mk c) :: rest) ((m :: p2) ++ [n]) = true := by
    rw [List.cons_append, chain_head_eq]; exact h2
  have := hu (m :: p1) (m :: p2) n l1 l2
  exact (List.cons_eq_cons.mp this).2

theorem uniquePos_rest {m : N} {u : Tree N} {rest : List (N × Tree N)}
    (hkey : containsKey rest m = false) (hu : UniquePosL ((m, u) :: rest)) :
    UniquePosL rest := by
  intro p1 p2 n h1 h2
  exact hu p1 p2 n (chain_cons_of_rest hkey h1) (chain_cons_of_rest hkey h2)

theorem nodup_of_uniquePos {cs : List (N × Tree N)} (hw : wfb cs = true)
    (hu : UniquePosL cs) : (nodesL cs).Nodup := by
  induction cs using nestedInd with
  | h0 => simp [nodesL]
  | h1 m c rest ihc ihr =>
    rw [wfb_cons] at hw
    obtain ⟨hkey, hwc, hwr⟩ := hw
    rw [nodesL_cons]
    have huc : UniquePosL c := uniquePos_sub_head hu
    have hur : UniquePosL rest := uniquePos_rest hkey hu
    have chainm : chainb ((m, Tree.mk c) :: rest) ([] ++ [m]) = true := by
      rw [List.nil_append, chain_cons]
      exact ⟨Tree.mk c, by simp [lookup'], chain_nil _⟩
    rw [List.nodup_cons]
    constructor
    · intro hmem
      rcases List.mem_append.mp hmem with h | h
      · obtain ⟨r, hr⟩ := (mem_nodes_iff_chain hwc m).mp h
        have l1 : chainb ((m, Tree.mk c) :: rest) ((m :: r) ++ [m]) = true := by
          rw [List.cons_append, chain_head_eq]; exact hr
        have := hu (m :: r) [] m l1 chainm
        simp at this
      · obtain ⟨r, hr⟩ := (mem_nodes_iff_chain hwr m).mp h
        have l1 := chain_cons_of_rest hkey hr (u := Tree.mk c)
        have heq := hu r [] m l1 chainm
        subst heq
        rw [List.nil_append] at hr
        exact (containsKey_false_iff.mp hkey) (chain_mem_keys hr)
    · rw [List.nodup_append]
      refine ⟨ihc hwc huc, ihr hwr hur, ?_⟩
      intro a ha hb
      obtain ⟨r1, h1⟩ := (mem_nodes_iff_chain hwc a).mp ha
      obtain ⟨r2, h2⟩ := (mem_nodes_iff_chain hwr a).mp hb
      have l1 : chainb ((m, Tree.mk c) :: rest) ((m :: r1) ++ [a]) = true := by
        rw [List.cons_append, chain_head_eq]; exact h1
      have l2 := chain_cons_of_rest hkey h2 (u := Tree.mk c)
      have heq := hu (m :: r1) r2 a l1 l2
      rw [← heq, List.cons_append] at h2
      exact (containsKey_false_iff.mp hkey) (chain_mem_keys h2)

theorem uniquePos_of_nodup {cs : List (N × Tree N)} (hw : wfb cs = true)
    (hnd : (nodesL cs).Nodup) : UniquePosL cs := by
  induction cs using nestedInd with
  | h0 => exact fun p1 p2 n h1 _ => absurd h1 (fun h => chain_nil_elim h)
  | h1 m c rest ihc ihr =>
    rw [wfb_cons] at hw
    obtain ⟨hkey, hwc, hwr⟩ := hw
    rw [nodesL_cons, List.nodup_cons, List.nodup_append] at hnd
    obtain ⟨hmns, ndc, ndr, disj⟩ := hnd
    have hmc : m ∉ nodesL c := fun h => hmns (List.mem_append.mpr (Or.inl h))
    have hmr : m ∉ nodesL rest := fun h => hmns (List.mem_append.mpr (Or.inr h))
    have huc := ihc hwc ndc
    have hur := ihr hwr ndr
    have classify : ∀ p (n : N), chainb ((m, Tree.mk c) :: rest) (p ++ [n]) = true →
        (p = [] ∧ n = m) ∨
        (∃ r, p = m :: r ∧ chainb c (r ++ [n]) = true) ∨
        (chainb rest (p ++ [n]) = true) := by
      intro p n h
      cases p with
      | nil =>
        rw [List.nil_append, chain_cons] at h
        obtain ⟨t, ht, _⟩ := h
        by_cases hnm : n = m
        · exact Or.inl ⟨rfl, hnm⟩
        · right; right
          rw [List.nil_append, chain_cons]
          refine ⟨t, ?_, chain_nil _⟩
          rw [show lookup' ((m, Tree.mk c) :: rest) n =
            if m = n then some (Tree.mk c) else lookup' rest n from rfl,
            if_neg (Ne.symm hnm)] at ht
          exact ht
      | cons x p' =>
        by_cases hxm : x = m
        · subst hxm
          rw [List.cons_append, chain_head_eq] at h
          exact Or.inr (Or.inl ⟨p', rfl, h⟩)
        · rw [List.cons_append, chain_head_ne hxm, ← List.cons_append] at h
          exact Or.inr (Or.inr h)
    intro p1 p2 n h1 h2
    rcases classify p1 n h1 with ⟨hp1, hn1⟩ | ⟨r1, hp1, hc1⟩ | hc1 <;>
      rcases classify p2 n h2 with ⟨hp2, hn2⟩ | ⟨r2, hp2, hc2⟩ | hc2
    · rw [hp1, hp2]
    · exact absurd ((mem_nodes_iff_chain hwc n).mpr ⟨r2, hc2⟩) (hn1 ▸ hmc)
    · exact absurd ((mem_nodes_iff_chain hwr n).mpr ⟨p2, hc2⟩) (hn1 ▸ hmr)
    · exact absurd ((mem_nodes_iff_chain hwc n).mpr ⟨r1, hc1⟩) (hn2 ▸ hmc)
    · rw [hp1, hp2, huc r1 r2 n hc1 hc2]
    · exact absurd ((mem_nodes_iff_chain hwr n).mpr ⟨p2, hc2⟩)
        (disj ((mem_nodes_iff_chain hwc n).mpr ⟨r1, hc1⟩))
    · exact absurd ((mem_nodes_iff_chain hwr n).mpr ⟨p1, hc1⟩) (hn2 ▸ hmr)
    · exact absurd ((mem_nodes_iff_chain hwr n).mpr ⟨p1, hc1⟩)
        (disj ((mem_nodes_iff_chain hwc n).mpr ⟨r2, hc2⟩))
    · exact hur p1 p2 n hc1 hc2

theorem chain_of_initialSeg {cs : List (N × Tree N)} {l q : List N}
    (hq : q <+: l) (hl : chainb cs l = true) : chainb cs q = true := by
  induction q generalizing cs l with
  | nil => exact chain_nil _
  | cons x q' ih =>
    cases l with
    | nil => exact absurd (List.prefix_nil.mp hq) (by simp)
    | cons y l' =>
      obtain ⟨hxy, hql⟩ := List.cons_prefix_cons.mp hq
      subst hxy
      rw [chain_cons] at hl ⊢
      obtain ⟨t, ht, hc⟩ := hl
      exact ⟨t, ht, ih hql hc⟩

theorem mem_concat_self_initialSeg {p : List N} {n : N} (h : n ∈ p) :
    ∃ r, r ++ [n] <+: p := by
  induction p with
  | nil => simp at h
  | cons x p' ih =>
    by_cases hx : n = x
    · subst hx
      exact ⟨[], by simp⟩
    · rcases List.mem_cons.mp h with h | h
      · exact absurd h hx
      · obtain ⟨r, hr⟩ := ih h
        exact ⟨x :: r, by rw [List.cons_append]; exact List.cons_prefix_cons.mpr ⟨rfl, hr⟩⟩

theorem nodup_of_unique_concat {l : List N}
    (h : ∀ r1 r2 (x : N), r1 ++ [x] <+: l → r2 ++ [x] <+: l → r1 = r2) :
    l.Nodup := by
  induction l with
  | nil => simp
  | cons y l' ih =>
    rw [List.nodup_cons]
    constructor
    · intro hy
      obtain ⟨r, hr⟩ := mem_concat_self_initialSeg hy
      have h1 : (y :: r) ++ [y] <+: y :: l' := by
        rw [List.cons_append]
        exact List.cons_prefix_cons.mpr ⟨rfl, hr⟩
      have h2 : ([] : List N) ++ [y] <+: y :: l' := by
        simp
      have := h (y :: r) [] y h1 h2
      simp at this
    · apply ih
      intro r1 r2 x hr1 hr2
      have h1 : (y :: r1) ++ [x] <+: y :: l' := by
        rw [List.cons_append]
        exact List.cons_prefix_cons.mpr ⟨rfl, hr1⟩
      have h2 : (y :: r2) ++ [x] <+: y :: l' := by
        rw [List.cons_append]
        exact List.cons_prefix_cons.mpr ⟨rfl, hr2⟩
      have := h (y :: r1) (y :: r2) x h1 h2
      exact (List.cons_eq_cons.mp this).2

theorem chain_nodup_of_unique {cs : List (N × Tree N)} (hu : UniquePosL cs)
    {l : List N} (hl : chainb cs l = true) : l.Nodup := by
  apply nodup_of_unique_concat
  intro r1 r2 x hr1 hr2
  exact hu r1 r2 x (chain_of_initialSeg hr1 hl) (chain_of_initialSeg hr2 hl)

/-! Build-from-paths lemmas (C6). -/

theorem chain_base_iff (q : List N) :
    chainb ([] : List (N × Tree N)) q = true ↔ q = [] := by
  cases q with
  | nil => simp [chain_nil]
  | cons x l => simp [chainb, lookup']

theorem wfb_foldl_add (ps : List (List N)) :
    ∀ t : Tree N, wfb t.children = true →
      wfb ((ps.foldl Tree.add t)).children = true := by
  induction ps with
  | nil => exact fun t h => h
  | cons p ps ih =>
    intro t h
    rw [List.foldl_cons]
    exact ih _ (wfb_add h p)

theorem concat_prefix_eq_takeWhile {path : List N} (hnd : path.Nodup)
    {p : List N} {n : N} (h : p ++ [n] <+: path) :
    p = path.takeWhile (fun x => decide (x ≠ n)) := by
  induction path generalizing p with
  | nil =>
    have := List.prefix_nil.mp h
    simp at this
  | cons y path' ih =>
    rw [List.nodup_cons] at hnd
    cases p with
    | nil =>
      rw [List.nil_append] at h
      have hny : n = y := (List.cons_prefix_cons.mp h).1
      subst hny
      simp [List.takeWhile]
    | cons a p' =>
      rw [List.cons_append] at h
      obtain ⟨hay, hpre⟩ := List.cons_prefix_cons.mp h
      subst hay
      have hnp : n ∈ path' := hpre.subset (by simp)
      have hna : a ≠ n := fun he => hnd.1 (he ▸ hnp)
      rw [show (a :: path').takeWhile (fun x => decide (x ≠ n)) =
        a :: path'.takeWhile (fun x => decide (x ≠ n)) from by
          simp [List.takeWhile, hna]]
      rw [ih hnd.2 hpre]

theorem takeWhile_concat_initialSeg {path : List N} {n : N} (h : n ∈ path) :
    path.takeWhile (fun x => decide (x ≠ n)) ++ [n] <+: path := by
  induction path with
  | nil => simp at h
  | cons y path' ih =>
    by_cases hny : y = n
    · subst hny
      simp [List.takeWhile]
    · have hn' : n ∈ path' := by
        rcases List.mem_cons.mp h with h | h
        · exact absurd h.symm hny
        · exact h
      rw [show (y :: path').takeWhile (fun x => decide (x ≠ n)) =
        y :: path'.takeWhile (fun x => decide (x ≠ n)) from by
          simp [List.takeWhile, hny]]
      rw [List.cons_append]
      exact List.cons_prefix_cons.mpr ⟨rfl, ih hn'⟩

/-- C6 counterexample: the paths `[0,1]` and `[2,1]` insert identity 1 at two
distinct positions, so `AllNodes` yields it twice. -/
theorem c6_counterexample :
    ¬ ((((Tree.mk [] : Tree Nat).add [0, 1]).add [2, 1]).all.map Prod.snd).Nodup := by
  have hb : (((Tree.mk [] : Tree Nat).add [0, 1]).add [2, 1]) =
      Tree.mk [(0, Tree.mk [(1, Tree.mk [])]), (2, Tree.mk [(1, Tree.mk [])])] := by
    simp [Tree.add, Tree.children, lookup', setEntry]
  rw [hb]
  rw [show (Tree.mk [(0, Tree.mk [(1, Tree.mk [])]),
      (2, Tree.mk [(1, Tree.mk [])])] : Tree Nat).all.map Prod.snd =
    nodesL [(0, Tree.mk [(1, Tree.mk [])]), (2, Tree.mk [(1, Tree.mk [])])] from
      map_snd_allFromL 0 _]
  simp [nodesL]

/-- C6 amended: building by repeated Add and enumerating with AllNodes yields
exactly the identities occurring in the inserted paths; each is yielded
exactly once PROVIDED the path set is coherent, i.e. no path repeats an
identity and any identity common to two paths is preceded by the same prefix
in both (each identity has a unique position).  Without that proviso an
identity inserted at two positions is yielded once per position. -/
theorem c6_build_allnodes_amended (ps : List (List N))
    (hnd : ∀ p ∈ ps, p.Nodup)
    (hco : ∀ p1 ∈ ps, ∀ p2 ∈ ps, ∀ n ∈ p1, n ∈ p2 →
      p1.takeWhile (fun x => decide (x ≠ n)) =
        p2.takeWhile (fun x => decide (x ≠ n))) :
    ((ps.foldl Tree.add (Tree.mk [])).all.map Prod.snd).Nodup ∧
      ∀ n : N, n ∈ (ps.foldl Tree.add (Tree.mk [])).all.map Prod.snd ↔
        ∃ p ∈ ps, n ∈ p := by
  have hwf : wfb (ps.foldl Tree.add (Tree.mk [])).children = true :=
    wfb_foldl_add ps (Tree.mk [])
      (by rw [show (Tree.mk [] : Tree N).children = [] from rfl]; simp [wfb])
  have hchains : ∀ q, chainb (ps.foldl Tree.add (Tree.mk [])).children q = true ↔
      (q = [] ∨ ∃ p ∈ ps, q <+: p) := by
    intro q
    rw [chain_foldl_add]
    rw [show (Tree.mk [] : Tree N).children = [] from rfl, chain_base_iff]
  rw [show (ps.foldl Tree.add (Tree.mk [])).all.map Prod.snd =
    nodesL (ps.foldl Tree.add (Tree.mk [])).children from map_snd_allFromL 0 _]
  constructor
  · apply nodup_of_uniquePos hwf
    intro p1 p2 n h1 h2
    rcases (hchains _).mp h1 with h | ⟨q1, hq1, hpre1⟩
    · simp at h
    rcases (hchains _).mp h2 with h | ⟨q2, hq2, hpre2⟩
    · simp at h
    have e1 := concat_prefix_eq_takeWhile (hnd q1 hq1) hpre1
    have e2 := concat_prefix_eq_takeWhile (hnd q2 hq2) hpre2
    have hn1 : n ∈ q1 := hpre1.subset (by simp)
    have hn2 : n ∈ q2 := hpre2.subset (by simp)
    rw [e1, e2, hco q1 hq1 q2 hq2 n hn1 hn2]
  · intro n
    rw [mem_nodes_iff_chain hwf]
    constructor
    · rintro ⟨r, hr⟩
      rcases (hchains _).mp hr with h | ⟨q, hq, hpre⟩
      · simp at h
      · exact ⟨q, hq, hpre.subset (by simp)⟩
    · rintro ⟨p, hp, hn⟩
      exact ⟨p.takeWhile (fun x => decide (x ≠ n)),
        (hchains _).mpr (Or.inr ⟨p, hp, takeWhile_concat_initialSeg hn⟩)⟩

/-- C6 amended, witness: the scenario path set is coherent and yields the five
identities exactly once. -/
theorem c6_build_allnodes_amended_witness :
    (∀ p ∈ ([[0, 1, 3], [0, 2], [0, 1, 4]] : List (List Nat)), p.Nodup) ∧
      ((([[0, 1, 3], [0, 2], [0, 1, 4]] : List (List Nat)).foldl Tree.add
        (Tree.mk [])).all.map Prod.snd).Nodup :=
  ⟨by decide,
   (c6_build_allnodes_amended [[0, 1, 3], [0, 2], [0, 1, 4]] (by decide)
     (by decide)).1⟩

/-! Ordered traversal is a permutation of the unordered traversal (C7). -/

theorem flatMap_congr_mem {α β : Type} {l : List α} {f g : α → List β}
    (h : ∀ a ∈ l, f a = g a) : l.flatMap f = l.flatMap g := by
  induction l with
  | nil => rfl
  | cons a l ih =>
    rw [List.flatMap_cons, List.flatMap_cons, h a (List.mem_cons_self _ _),
      ih fun a ha => h a (List.mem_cons_of_mem _ ha)]

theorem orderedGo_nil (cmp : N → N → Int) (d : Nat) (cs : List (N × Tree N)) :
    orderedGo cmp d cs [] = [] := by
  simp only [orderedGo]

theorem orderedGo_cons_some (cmp : N → N → Int) (d : Nat)
    {cs : List (N × Tree N)} {k : N} {t : Tree N} (h : lookup' cs k = some t)
    (ks : List N) :
    orderedGo cmp d cs (k :: ks) =
      (d, k) :: (orderedGo cmp (d + 1) t.children (sortKeys cmp t.children) ++
        orderedGo cmp d cs ks) := by
  simp only [orderedGo]
  split
  · rename_i t' heq
    rw [h] at heq
    cases heq
    rfl
  · rename_i heq
    rw [h] at heq
    cases heq

theorem flatMap_keys_allFromL :
    ∀ (cs : List (N × Tree N)), wfb cs = true → ∀ d,
      ((keysL cs).flatMap fun k =>
        (d, k) :: allFromL (d + 1) ((lookup' cs k).getD (Tree.mk [])).children) =
      allFromL d cs := by
  intro cs
  induction cs using nestedInd with
  | h0 => intro _ d; simp [keysL, allFromL]
  | h1 n c rest ihc ihr =>
    intro hw d
    rw [wfb_cons] at hw
    obtain ⟨hkey, hwc, hwr⟩ := hw
    rw [keysL_cons, List.flatMap_cons]
    have hn : lookup' ((n, Tree.mk c) :: rest) n = some (Tree.mk c) := by
      simp [lookup']
    rw [hn]
    have hcong : ((keysL rest).flatMap fun k =>
        (d, k) :: allFromL (d + 1)
          ((lookup' ((n, Tree.mk c) :: rest) k).getD (Tree.mk [])).children) =
        ((keysL rest).flatMap fun k =>
          (d, k) :: allFromL (d + 1) ((lookup' rest k).getD (Tree.mk [])).children) := by
      apply flatMap_congr_mem
      intro k hk
      have hkn : k ≠ n := fun he => (containsKey_false_iff.mp hkey) (he ▸ hk)
      rw [show lookup' ((n, Tree.mk c) :: rest) k =
        if n = k then some (Tree.mk c) else lookup' rest k from rfl,
        if_neg (Ne.symm hkn)]
    rw [hcong, ihr hwr d]
    rw [show allFromL d ((n, Tree.mk c) :: rest) =
      (d, n) :: (allFromL (d + 1) c ++ allFromL d rest) from by simp [allFromL]]
    rfl

theorem orderedGo_perm_allFromL (cmp : N → N → Int) :
    ∀ (cs : List (N × Tree N)), wfb cs = true →
      ∀ d, List.Perm (orderedGo cmp d cs (sortKeys cmp cs)) (allFromL d cs) := by
  have key : ∀ (s : Nat) (cs : List (N × Tree N)), sizeL cs = s → wfb cs = true →
      ∀ d, List.Perm (orderedGo cmp d cs (sortKeys cmp cs)) (allFromL d cs) := by
    intro s
    induction s using Nat.strong_induction_on with
    | _ s ih =>
      intro cs hs hw d
      have aux1 : ∀ ks : List N, (∀ k ∈ ks, k ∈ keysL cs) →
          List.Perm (orderedGo cmp d cs ks)
            (ks.flatMap fun k =>
              (d, k) :: allFromL (d + 1) ((lookup' cs k).getD (Tree.mk [])).children) := by
        intro ks
        induction ks with
        | nil => intro _; rw [orderedGo_nil]; simp
        | cons k ks' ihk =>
          intro hmem
          have hk := hmem k (List.mem_cons_self _ _)
          obtain ⟨t, ht⟩ : ∃ t, lookup' cs k = some t := by
            cases hl : lookup' cs k with
            | none => exact absurd hk (lookup'_none_iff.mp hl)
            | some t => exact ⟨t, rfl⟩
          rw [orderedGo_cons_some cmp d ht, List.flatMap_cons, ht]
          rw [show (((d, k) :: allFromL (d + 1) ((some t).getD (Tree.mk [])).children) ++
            ks'.flatMap fun k =>
              (d, k) :: allFromL (d + 1) ((lookup' cs k).getD (Tree.mk [])).children) =
            (d, k) :: (allFromL (d + 1) t.children ++
              ks'.flatMap fun k =>
                (d, k) :: allFromL (d + 1) ((lookup' cs k).getD (Tree.mk [])).children)
            from by simp]
          apply List.Perm.cons
          apply List.Perm.append
          · exact ih (sizeL t.children) (hs ▸ sizeL_lookup ht) t.children rfl
              (wfb_sub hw ht) (d + 1)
          · exact ihk fun k' hk' => hmem k' (List.mem_cons_of_mem _ hk')
      have h1 := aux1 (sortKeys cmp cs)
        (fun k hk =>
          (List.Perm.mem_iff (List.mergeSort_perm (keysL cs) (leB cmp))).mp hk)
      have h2 : List.Perm
          ((sortKeys cmp cs).flatMap fun k =>
            (d, k) :: allFromL (d + 1) ((lookup' cs k).getD (Tree.mk [])).children)
          ((keysL cs).flatMap fun k =>
            (d, k) :: allFromL (d + 1) ((lookup' cs k).getD (Tree.mk [])).children) :=
        List.Perm.flatMap_right _ (List.mergeSort_perm (keysL cs) (leB cmp))
      have h3 := flatMap_keys_allFromL cs hw d
      exact (h1.trans h2).trans (h3 ▸ List.Perm.refl _)
  exact fun cs hw d => key (sizeL cs) cs rfl hw d

/-- C7: for every forest and every comparator, the ordered traversal yields a
permutation of the unordered traversal as a multiset of (depth, node) pairs:
same node set, identical per-node depth. -/
theorem c7_ordered_perm_all (t : Tree N) (cmp : N → N → Int)
    (hw : wfb t.children = true) : List.Perm (t.ordered cmp) t.all :=
  orderedGo_perm_allFromL cmp t.children hw 0

/-- C7 witness at the scenario forest with the comparator `a - b`. -/
theorem c7_ordered_perm_all_witness :
    wfb exForest.children = true ∧
      List.Perm (exForest.ordered fun a b => a - b) exForest.all := by
  have hwf : wfb exForest.children = true := by
    rw [exForest_eq]
    simp [Tree.children, wfb, containsKey, lookup']
  exact ⟨hwf, c7_ordered_perm_all exForest (fun a b => a - b) hwf⟩

/-! Map equivalence and ordered-traversal determinism (C4). -/

/-- One-sided recursive sub-map test: every entry of the first association
list is bound in the second to a recursively equivalent subtree. -/
def subEqv : List (N × Tree N) → List (N × Tree N) → Bool
  | [], _ => true
  | (n, .mk cs) :: rest, l2 =>
      (match lookup' l2 n with
       | some t => subEqv cs t.children
       | none => false) && subEqv rest l2
termination_by l1 _ => sizeL l1
decreasing_by
  · simp only [sizeL]; omega
  · simp only [sizeL]; omega

/-- Two association lists represent the same Go map value exactly when each
is a sub-map of the other. -/
def TreeEqv (t1 t2 : Tree N) : Prop :=
  subEqv t1.children t2.children = true ∧ subEqv t2.children t1.children = true

theorem subEqv_cons {m : N} {c rest l2 : List (N × Tree N)} :
    subEqv ((m, Tree.mk c) :: rest) l2 = true ↔
      (∃ t, lookup' l2 m = some t ∧ subEqv c t.children = true) ∧
        subEqv rest l2 = true := by
  cases hl : lookup' l2 m with
  | none => simp [subEqv, hl]
  | some t => simp [subEqv, hl]

theorem subEqv_lookup {l1 l2 : List (N × Tree N)} (he : subEqv l1 l2 = true)
    {n : N} {u1 : Tree N} (hl : lookup' l1 n = some u1) :
    ∃ u2, lookup' l2 n = some u2 ∧ subEqv u1.children u2.children = true := by
  induction l1 with
  | nil => simp [lookup'] at hl
  | cons e rest ih =>
    obtain ⟨m, ⟨c⟩⟩ := e
    rw [subEqv_cons] at he
    obtain ⟨⟨t, hlt, hsub⟩, hrest⟩ := he
    by_cases hm : m = n
    · subst hm
      rw [show lookup' ((m, Tree.mk c) :: rest) m = some (Tree.mk c) from by
        simp [lookup']] at hl
      cases hl
      exact ⟨t, hlt, hsub⟩
    · rw [show lookup' ((m, Tree.mk c) :: rest) n =
        if m = n then some (Tree.mk c) else lookup' rest n from rfl,
        if_neg hm] at hl
      exact ih hrest hl

theorem subEqv_keys_subset {l1 l2 : List (N × Tree N)} (he : subEqv l1 l2 = true)
    {n : N} (h : n ∈ keysL l1) : n ∈ keysL l2 := by
  rw [← containsKey_iff] at h
  obtain ⟨u1, hu1⟩ : ∃ u1, lookup' l1 n = some u1 := by
    cases hl : lookup' l1 n with
    | none => rw [containsKey, hl] at h; simp at h
    | some u => exact ⟨u, rfl⟩
  obtain ⟨u2, hl2, _⟩ := subEqv_lookup he hu1
  rw [← containsKey_iff]
  simp [containsKey, hl2]

theorem keysL_nodup_of_wfb {cs : List (N × Tree N)} (hw : wfb cs = true) :
    (keysL cs).Nodup := by
  induction cs using nestedInd with
  | h0 => simp [keysL]
  | h1 n c rest ihc ihr =>
    rw [wfb_cons] at hw
    rw [keysL_cons, List.nodup_cons]
    exact ⟨containsKey_false_iff.mp hw.1, ihr hw.2.2⟩

theorem sortKeys_eq_of_perm (cmp : N → N → Int)
    (htr : ∀ a b c : N, cmp a b ≤ 0 → cmp b c ≤ 0 → cmp a c ≤ 0)
    (hto : ∀ a b : N, cmp a b ≤ 0 ∨ cmp b a ≤ 0)
    (hat : ∀ a b : N, cmp a b ≤ 0 → cmp b a ≤ 0 → a = b)
    {k1 k2 : List N} (hp : List.Perm k1 k2) :
    List.mergeSort k1 (leB cmp) = List.mergeSort k2 (leB cmp) := by
  haveI : IsAntisymm N (fun a b => leB cmp a b = true) :=
    ⟨fun a b h1 h2 => hat a b (by simpa [leB] using h1) (by simpa [leB] using h2)⟩
  have htrans : ∀ a b c : N, leB cmp a b = true → leB cmp b c = true →
      leB cmp a c = true := by
    intro a b c h1 h2
    simp only [leB, decide_eq_true_eq] at h1 h2 ⊢
    exact htr a b c h1 h2
  have htotal : ∀ a b : N, (leB cmp a b || leB cmp b a) = true := by
    intro a b
    rcases hto a b with h | h
    · simp [leB, h]
    · simp [leB, h]
  have hs1 : (List.mergeSort k1 (leB cmp)).Sorted (fun a b => leB cmp a b = true) :=
    List.sorted_mergeSort htrans htotal k1
  have hs2 : (List.mergeSort k2 (leB cmp)).Sorted (fun a b => leB cmp a b = true) :=
    List.sorted_mergeSort htrans htotal k2
  exact List.eq_of_perm_of_sorted
    (((List.mergeSort_perm k1 (leB cmp)).trans hp).trans
      (List.mergeSort_perm k2 (leB cmp)).symm) hs1 hs2

theorem orderedGo_eqv (cmp : N → N → Int)
    (htr : ∀ a b c : N, cmp a b ≤ 0 → cmp b c ≤ 0 → cmp a c ≤ 0)
    (hto : ∀ a b : N, cmp a b ≤ 0 ∨ cmp b a ≤ 0)
    (hat : ∀ a b : N, cmp a b ≤ 0 → cmp b a ≤ 0 → a = b) :
    ∀ (s : Nat) (cs1 : List (N × Tree N)), sizeL cs1 = s →
      ∀ cs2, wfb cs1 = true → wfb cs2 = true →
        subEqv cs1 cs2 = true → subEqv cs2 cs1 = true →
        ∀ d, orderedGo cmp d cs1 (sortKeys cmp cs1) =
          orderedGo cmp d cs2 (sortKeys cmp cs2) := by
  intro s
  induction s using Nat.strong_induction_on with
  | _ s ih =>
    intro cs1 hs cs2 hw1 hw2 he12 he21 d
    have hperm : List.Perm (keysL cs1) (keysL cs2) := by
      rw [List.perm_ext_iff_of_nodup (keysL_nodup_of_wfb hw1) (keysL_nodup_of_wfb hw2)]
      exact fun a => ⟨fun h => subEqv_keys_subset he12 h, fun h => subEqv_keys_subset he21 h⟩
    have hsort : sortKeys cmp cs1 = sortKeys cmp cs2 :=
      sortKeys_eq_of_perm cmp htr hto hat hperm
    rw [hsort]
    have aux : ∀ ks : List N, (∀ k ∈ ks, k ∈ keysL cs1) →
        orderedGo cmp d cs1 ks = orderedGo cmp d cs2 ks := by
      intro ks
      induction ks with
      | nil => intro _; rw [orderedGo_nil, orderedGo_nil]
      | cons k ks' ihk =>
        intro hmem
        have hk1 : k ∈ keysL cs1 := hmem k (List.mem_cons_self _ _)
        obtain ⟨u1, hu1⟩ : ∃ u1, lookup' cs1 k = some u1 := by
          cases hl : lookup' cs1 k with
          | none => exact absurd hk1 (lookup'_none_iff.mp hl)
          | some u => exact ⟨u, rfl⟩
        obtain ⟨u2, hu2, hsub12⟩ := subEqv_lookup he12 hu1
        obtain ⟨u1', hu1', hsub21⟩ := subEqv_lookup he21 hu2
        rw [hu1] at hu1'
        cases hu1'
        rw [orderedGo_cons_some cmp d hu1 ks', orderedGo_cons_some cmp d hu2 ks']
        rw [ihk (fun k' h => hmem k' (List.mem_cons_of_mem _ h))]
        rw [ih (sizeL u1.children) (hs ▸ sizeL_lookup hu1) u1.children rfl
          u2.children (wfb_sub hw1 hu1) (wfb_sub hw2 hu2) hsub12 hsub21 (d + 1)]
    apply aux
    intro k hk
    have hk2 : k ∈ keysL cs2 :=
      (List.Perm.mem_iff (List.mergeSort_perm (keysL cs2) (leB cmp))).mp hk
    exact subEqv_keys_subset he21 hk2

/-- C4 amended: tree.go's `Ordered` applies NO identity tie-break, so the
traversal is deterministic only for comparators that never tie two distinct
identities (and are transitive and total): then any two association-list
representations of the same forest map yield the identical sequence.  For a
tying comparator the relative order of tied siblings follows the unspecified
map iteration order, as the counterexample shows. -/
theorem c4_ordered_deterministic_amended (cmp : N → N → Int) (t1 t2 : Tree N)
    (hw1 : wfb t1.children = true) (hw2 : wfb t2.children = true)
    (heq : TreeEqv t1 t2)
    (htr : ∀ a b c : N, cmp a b ≤ 0 → cmp b c ≤ 0 → cmp a c ≤ 0)
    (hto : ∀ a b : N, cmp a b ≤ 0 ∨ cmp b a ≤ 0)
    (hat : ∀ a b : N, cmp a b ≤ 0 → cmp b a ≤ 0 → a = b) :
    t1.ordered cmp = t2.ordered cmp :=
  orderedGo_eqv cmp htr hto hat (sizeL t1.children) t1.children rfl t2.children
    hw1 hw2 heq.1 heq.2 0

/-- C4 amended, witness: two representations of the map `{1:{}, 2:{}}` under
the tie-free comparator `fun a b => a - b`. -/
theorem c4_ordered_deterministic_amended_witness :
    TreeEqv (Tree.mk [(1, Tree.mk []), (2, Tree.mk [])] : Tree Nat)
      (Tree.mk [(2, Tree.mk []), (1, Tree.mk [])]) ∧
    (Tree.mk [(1, Tree.mk []), (2, Tree.mk [])] : Tree Nat).ordered
        (fun a b => (a : Int) - (b : Int)) =
      (Tree.mk [(2, Tree.mk []), (1, Tree.mk [])] : Tree Nat).ordered
        (fun a b => (a : Int) - (b : Int)) := by
  have heq : TreeEqv (Tree.mk [(1, Tree.mk []), (2, Tree.mk [])] : Tree Nat)
      (Tree.mk [(2, Tree.mk []), (1, Tree.mk [])]) := by
    constructor <;> simp [Tree.children, subEqv, lookup']
  refine ⟨heq, c4_ordered_deterministic_amended _ _ _ ?_ ?_ heq ?_ ?_ ?_⟩
  · simp [Tree.children, wfb, containsKey, lookup']
  · simp [Tree.children, wfb, containsKey, lookup']
  · intro a b c h1 h2; omega
  · intro a b; omega
  · intro a b h1 h2; omega

/-- C4 counterexample: under the constant comparator (every pair of siblings
ties) the two association orders of the same two-root map `{1:{}, 2:{}}`
yield different sequences, and the tied roots are not emitted in the node
identity's natural order: the claimed tie-break does not exist in the code. -/
theorem c4_counterexample :
    TreeEqv (Tree.mk [(2, Tree.mk []), (1, Tree.mk [])] : Tree Nat)
      (Tree.mk [(1, Tree.mk []), (2, Tree.mk [])]) ∧
    (Tree.mk [(2, Tree.mk []), (1, Tree.mk [])] : Tree Nat).ordered (fun _ _ => 0) ≠
      (Tree.mk [(1, Tree.mk []), (2, Tree.mk [])] : Tree Nat).ordered
        (fun _ _ => 0) := by
  have hsknil : sortKeys (fun _ _ => (0 : Int)) ([] : List (Nat × Tree Nat)) = [] := by
    show List.mergeSort (keysL ([] : List (Nat × Tree Nat))) _ = []
    rw [show keysL ([] : List (Nat × Tree Nat)) = [] from rfl]
    exact List.mergeSort_nil
  constructor
  · constructor <;> simp [Tree.children, subEqv, lookup']
  · have hsk1 : sortKeys (fun _ _ => (0 : Int))
        ([(2, Tree.mk []), (1, Tree.mk [])] : List (Nat × Tree Nat)) = [2, 1] := by
      show List.mergeSort [2, 1] (leB fun _ _ => (0 : Int)) = [2, 1]
      exact List.mergeSort_of_sorted (by decide)
    have hsk2 : sortKeys (fun _ _ => (0 : Int))
        ([(1, Tree.mk []), (2, Tree.mk [])] : List (Nat × Tree Nat)) = [1, 2] := by
      show List.mergeSort [1, 2] (leB fun _ _ => (0 : Int)) = [1, 2]
      exact List.mergeSort_of_sorted (by decide)
    have e1 : (Tree.mk [(2, Tree.mk []), (1, Tree.mk [])] : Tree Nat).ordered
        (fun _ _ => 0) = [(0, 2), (0, 1)] := by
      show orderedGo (fun _ _ => (0 : Int)) 0 [(2, Tree.mk []), (1, Tree.mk [])]
        (sortKeys (fun _ _ => (0 : Int)) [(2, Tree.mk []), (1, Tree.mk [])]) =
        [(0, 2), (0, 1)]
      rw [hsk1,
        orderedGo_cons_some _ 0 (show lookup'
          ([(2, Tree.mk []), (1, Tree.mk [])] : List (Nat × Tree Nat)) 2 =
          some (Tree.mk []) from rfl),
        orderedGo_cons_some _ 0 (show lookup'
          ([(2, Tree.mk []), (1, Tree.mk [])] : List (Nat × Tree Nat)) 1 =
          some (Tree.mk []) from rfl)]
      rw [show (Tree.mk [] : Tree Nat).children = [] from rfl, hsknil]
      rw [orderedGo_nil, orderedGo_nil]
      rfl
    have e2 : (Tree.mk [(1, Tree.mk []), (2, Tree.mk [])] : Tree Nat).ordered
        (fun _ _ => 0) = [(0, 1), (0, 2)] := by
      show orderedGo (fun _ _ => (0 : Int)) 0 [(1, Tree.mk []), (2, Tree.mk [])]
        (sortKeys (fun _ _ => (0 : Int)) [(1, Tree.mk []), (2, Tree.mk [])]) =
        [(0, 1), (0, 2)]
      rw [hsk2,
        orderedGo_cons_some _ 0 (show lookup'
          ([(1, Tree.mk []), (2, Tree.mk [])] : List (Nat × Tree Nat)) 1 =
          some (Tree.mk []) from rfl),
        orderedGo_cons_some _ 0 (show lookup'
          ([(1, Tree.mk []), (2, Tree.mk [])] : List (Nat × Tree Nat)) 2 =
          some (Tree.mk []) from rfl)]
      rw [show (Tree.mk [] : Tree Nat).children = [] from rfl, hsknil]
      rw [orderedGo_nil, orderedGo_nil]
      rfl
    rw [e1, e2]
    decide

/-! FindTree characterization (C3). -/

/-- All sub-forest levels of a nested association list, in the depth-first
pre-order in which `FindTree` visits them. -/
def subforestsL : List (N × Tree N) → List (Tree N)
  | [] => []
  | (_, .mk cs) :: rest => Tree.mk cs :: (subforestsL cs ++ subforestsL rest)

/-- All sub-forest levels of a tree, the tree itself first. -/
def Tree.subforests (t : Tree N) : List (Tree N) :=
  t :: subforestsL t.children

theorem findTreeL_cons {node m : N} {c rest : List (N × Tree N)} :
    findTreeL node ((m, Tree.mk c) :: rest) =
      match (if containsKey c node then some (Tree.mk c) else findTreeL node c) with
      | some r => some r
      | none => findTreeL node rest := by
  simp [findTreeL]

theorem mem_nodesL_of_entry {cs : List (N × Tree N)} {m : N} {u : Tree N}
    (hm : (m, u) ∈ cs) {x : N} (hx : x ∈ nodesL u.children) : x ∈ nodesL cs := by
  induction cs with
  | nil => simp at hm
  | cons e rest ih =>
    obtain ⟨m', ⟨c'⟩⟩ := e
    rw [nodesL_cons]
    rcases List.mem_cons.mp hm with h | h
    · cases h
      exact List.mem_cons_of_mem _ (List.mem_append.mpr (Or.inl hx))
    · exact List.mem_cons_of_mem _ (List.mem_append.mpr (Or.inr (ih h)))

theorem mem_nodesL_iff {cs : List (N × Tree N)} {x : N} :
    x ∈ nodesL cs ↔ x ∈ keysL cs ∨ ∃ m u, (m, u) ∈ cs ∧ x ∈ nodesL u.children := by
  induction cs using nestedInd with
  | h0 => simp [nodesL, keysL]
  | h1 m c rest ihc ihr =>
    rw [nodesL_cons, keysL_cons]
    constructor
    · intro h
      rcases List.mem_cons.mp h with h | h
      · exact Or.inl (h ▸ List.mem_cons_self _ _)
      · rcases List.mem_append.mp h with h | h
        · exact Or.inr ⟨m, Tree.mk c, List.mem_cons_self _ _, h⟩
        · rcases ihr.mp h with h | ⟨m', u', hm', hx'⟩
          · exact Or.inl (List.mem_cons_of_mem _ h)
          · exact Or.inr ⟨m', u', List.mem_cons_of_mem _ hm', hx'⟩
    · intro h
      rcases h with h | ⟨m', u', hm', hx'⟩
      · rcases List.mem_cons.mp h with h | h
        · exact h ▸ List.mem_cons_self _ _
        · exact List.mem_cons_of_mem _
            (List.mem_append.mpr (Or.inr (keysL_subset_nodesL h)))
      · rcases List.mem_cons.mp hm' with h | h
        · cases h
          exact List.mem_cons_of_mem _ (List.mem_append.mpr (Or.inl hx'))
        · exact List.mem_cons_of_mem _
            (List.mem_append.mpr (Or.inr (ihr.mpr (Or.inr ⟨m', u', h, hx'⟩))))

theorem findTreeL_none_iff {node : N} : ∀ {cs : List (N × Tree N)},
    findTreeL node cs = none ↔
      ∀ (m : N) (u : Tree N), (m, u) ∈ cs → node ∉ nodesL u.children := by
  intro cs
  induction cs using nestedInd with
  | h0 => simp [findTreeL]
  | h1 m c rest ihc ihr =>
    rw [findTreeL_cons]
    by_cases hc : containsKey c node
    · rw [if_pos hc]
      constructor
      · intro h; cases h
      · intro h
        exact absurd (keysL_subset_nodesL (containsKey_iff.mp hc))
          (h m (Tree.mk c) (List.mem_cons_self _ _))
    · rw [if_neg hc]
      cases hf : findTreeL node c with
      | some r =>
        constructor
        · intro h; cases h
        · intro h
          have : ¬ (∀ (m' : N) (u' : Tree N), (m', u') ∈ c → node ∉ nodesL u'.children) := by
            intro hall
            rw [← ihc] at hall
            rw [hf] at hall
            cases hall
          push_neg at this
          obtain ⟨m', u', hm', hx'⟩ := this
          exact absurd (mem_nodesL_of_entry hm' hx')
            (h m (Tree.mk c) (List.mem_cons_self _ _))
      | none =>
        rw [ihr]
        constructor
        · intro h m' u' hm'
          rcases List.mem_cons.mp hm' with he | he
          · cases he
            intro hx
            rcases mem_nodesL_iff.mp hx with hx | ⟨m2, u2, hm2, hx2⟩
            · exact hc (containsKey_iff.mpr hx)
            · exact (ihc.mp hf m2 u2 hm2) hx2
          · exact h m' u' he
        · intro h m' u' hm'
          exact h m' u' (List.mem_cons_of_mem _ hm')

theorem findTreeL_some {node : N} : ∀ {cs : List (N × Tree N)} {r : Tree N},
    findTreeL node cs = some r →
      containsKey r.children node = true ∧ r ∈ subforestsL cs := by
  intro cs
  induction cs using nestedInd with
  | h0 => intro r h; simp [findTreeL] at h
  | h1 m c rest ihc ihr =>
    intro r h
    rw [findTreeL_cons] at h
    by_cases hc : containsKey c node
    · rw [if_pos hc] at h
      cases h
      refine ⟨hc, ?_⟩
      rw [show subforestsL ((m, Tree.mk c) :: rest) =
        Tree.mk c :: (subforestsL c ++ subforestsL rest) from by simp [subforestsL]]
      exact List.mem_cons_self _ _
    · rw [if_neg hc] at h
      rw [show subforestsL ((m, Tree.mk c) :: rest) =
        Tree.mk c :: (subforestsL c ++ subforestsL rest) from by simp [subforestsL]]
      cases hf : findTreeL node c with
      | some r' =>
        rw [hf] at h
        cases h
        obtain ⟨h1, h2⟩ := ihc hf
        exact ⟨h1, List.mem_cons_of_mem _ (List.mem_append.mpr (Or.inl h2))⟩
      | none =>
        rw [hf] at h
        obtain ⟨h1, h2⟩ := ihr h
        exact ⟨h1, List.mem_cons_of_mem _ (List.mem_append.mpr (Or.inr h2))⟩

/-- C3 counterexample: on the forest `{0:{}, 1:{}}` the Go `FindTree(0)`
returns the whole top-level map, which also contains the sibling 1, not the
sub-forest rooted exactly at 0. -/
theorem c3_counterexample :
    (Tree.mk [(0, Tree.mk []), (1, Tree.mk [])] : Tree Nat).findTree 0 =
      some (Tree.mk [(0, Tree.mk []), (1, Tree.mk [])]) ∧
    containsKey (Tree.mk [(0, Tree.mk []), (1, Tree.mk [])] : Tree Nat).children 1 =
      true := by
  constructor
  · rw [show (Tree.mk [(0, Tree.mk []), (1, Tree.mk [])] : Tree Nat).findTree 0 =
      if containsKey [(0, Tree.mk []), (1, Tree.mk [])] 0 then
        some (Tree.mk [(0, Tree.mk []), (1, Tree.mk [])]) else
        findTreeL 0 [(0, Tree.mk []), (1, Tree.mk [])] from rfl]
    rw [if_pos (by decide)]
  · decide

/-- C3 amended: `FindTree(target)` returns `nil` exactly when `target` does
not occur in the forest; on success it returns one of the forest's sub-forest
levels whose top level CONTAINS `target` as a key — i.e. `target`'s subtree
together with its immediate siblings, not the subtree rooted exactly at
`target`. -/
theorem c3_findtree_amended (t : Tree N) (node : N) :
    (t.findTree node = none ↔ node ∉ nodesL t.children) ∧
    ∀ m, t.findTree node = some m →
      containsKey m.children node = true ∧ m ∈ t.subforests := by
  obtain ⟨cs⟩ := t
  have hchild : (Tree.mk cs).children = cs := rfl
  constructor
  · rw [show (Tree.mk cs).findTree node =
      (if containsKey cs node then some (Tree.mk cs) else findTreeL node cs) from rfl]
    by_cases hc : containsKey cs node
    · rw [if_pos hc]
      constructor
      · intro h; cases h
      · intro h
        exact absurd (keysL_subset_nodesL (containsKey_iff.mp hc)) (hchild ▸ h)
    · rw [if_neg hc]
      rw [hchild, findTreeL_none_iff, mem_nodesL_iff]
      constructor
      · intro h hm
        rcases hm with hm | ⟨m', u', hm', hx'⟩
        · exact hc (containsKey_iff.mpr hm)
        · exact h m' u' hm' hx'
      · intro h m' u' hm' hx'
        exact h (Or.inr ⟨m', u', hm', hx'⟩)
  · intro m hm
    rw [show (Tree.mk cs).findTree node =
      (if containsKey cs node then some (Tree.mk cs) else findTreeL node cs) from rfl]
      at hm
    by_cases hc : containsKey cs node
    · rw [if_pos hc] at hm
      cases hm
      exact ⟨hc, List.mem_cons_self _ _⟩
    · rw [if_neg hc] at hm
      obtain ⟨h1, h2⟩ := findTreeL_some hm
      exact ⟨h1, List.mem_cons_of_mem _ h2⟩

/-- C3 amended, witness: the concrete forest `{0:{}, 1:{}}` queried at 0. -/
theorem c3_findtree_amended_witness :
    containsKey (Tree.mk [(0, Tree.mk []), (1, Tree.mk [])] : Tree Nat).children 0 =
        true ∧
      (Tree.mk [(0, Tree.mk []), (1, Tree.mk [])] : Tree Nat) ∈
        (Tree.mk [(0, Tree.mk []), (1, Tree.mk [])] : Tree Nat).subforests :=
  (c3_findtree_amended (Tree.mk [(0, Tree.mk []), (1, Tree.mk [])]) 0).2
    (Tree.mk [(0, Tree.mk []), (1, Tree.mk [])]) c3_counterexample.1

/-! Ancestors: the buffered walk reconstructs the DFS-first ancestor chain. -/

/-- The depth-first-first ancestor chain of `node` within a nested
association list: the keys above the first occurrence of `node`. -/
def ancChain : List (N × Tree N) → N → Option (List N)
  | [], _ => none
  | (n, .mk cs) :: rest, node =>
      if n = node then some []
      else
        match ancChain cs node with
        | some p => some (n :: p)
        | none => ancChain rest node
termination_by cs _ => sizeL cs
decreasing_by
  · simp only [sizeL]; omega
  · simp only [sizeL]; omega

theorem ancChain_cons_eq {n : N} {c rest : List (N × Tree N)} :
    ancChain ((n, Tree.mk c) :: rest) n = some [] := by
  simp [ancChain]

theorem ancChain_cons_ne {n node : N} (hne : ¬ n = node) {c rest : List (N × Tree N)} :
    ancChain ((n, Tree.mk c) :: rest) node =
      match ancChain c node with
      | some p => some (n :: p)
      | none => ancChain rest node := by
  simp [ancChain, hne]

theorem ancChain_none_iff {node : N} : ∀ {cs : List (N × Tree N)},
    ancChain cs node = none ↔ node ∉ nodesL cs := by
  intro cs
  induction cs using nestedInd with
  | h0 => simp [ancChain, nodesL]
  | h1 n c rest ihc ihr =>
    rw [nodesL_cons]
    by_cases hn : n = node
    · subst hn
      rw [ancChain_cons_eq]
      simp
    · rw [ancChain_cons_ne hn]
      cases ha : ancChain c node with
      | some p =>
        have : node ∈ nodesL c := by
          by_contra hmem
          rw [← ihc] at hmem
          rw [ha] at hmem
          cases hmem
        simp [this]
      | none =>
        have hnc : node ∉ nodesL c := ihc.mp ha
        rw [ihr]
        constructor
        · intro h hmem
          rcases List.mem_cons.mp hmem with he | he
          · exact hn he.symm
          · rcases List.mem_append.mp he with he | he
            · exact hnc he
            · exact h he
        · intro h he
          exact h (List.mem_cons_of_mem _ (List.mem_append.mpr (Or.inr he)))

theorem ancChain_chain {node : N} : ∀ {cs : List (N × Tree N)},
    wfb cs = true → ∀ {p}, ancChain cs node = some p →
      chainb cs (p ++ [node]) = true := by
  intro cs
  induction cs using nestedInd with
  | h0 => intro _ p hp; simp [ancChain] at hp
  | h1 n c rest ihc ihr =>
    intro hw p hp
    rw [wfb_cons] at hw
    obtain ⟨hkey, hwc, hwr⟩ := hw
    by_cases hn : n = node
    · subst hn
      rw [ancChain_cons_eq] at hp
      cases hp
      rw [List.nil_append, chain_cons]
      exact ⟨Tree.mk c, by simp [lookup'], chain_nil _⟩
    · rw [ancChain_cons_ne hn] at hp
      cases ha : ancChain c node with
      | some p' =>
        rw [ha] at hp
        cases hp
        rw [List.cons_append, chain_head_eq]
        exact ihc hwc ha
      | none =>
        rw [ha] at hp
        exact chain_cons_of_rest hkey (ihr hwr hp)

theorem ancestorsGo_sim (node : N) :
    ∀ (cs : List (N × Tree N)) (pre buf : List N) (rest : List (Nat × N)),
      buf.take pre.length = pre →
      (∀ p, ancChain cs node = some p →
        ancestorsGo node (allFromL pre.length cs ++ rest) buf = pre ++ p) ∧
      (ancChain cs node = none →
        ∃ buf2, buf2.take pre.length = pre ∧
          ancestorsGo node (allFromL pre.length cs ++ rest) buf =
            ancestorsGo node rest buf2) := by
  intro cs
  induction cs using nestedInd with
  | h0 =>
    intro pre buf rest hbuf
    constructor
    · intro p hp
      simp [ancChain] at hp
    · intro _
      refine ⟨buf, hbuf, ?_⟩
      rw [show allFromL pre.length ([] : List (N × Tree N)) = [] from by
        simp [allFromL], List.nil_append]
  | h1 n c rest' ihc ihr =>
    intro pre buf rest hbuf
    have hall : allFromL pre.length ((n, Tree.mk c) :: rest') =
        (pre.length, n) :: (allFromL (pre.length + 1) c ++ allFromL pre.length rest') := by
      simp [allFromL]
    by_cases hn : n = node
    · subst hn
      constructor
      · intro p hp
        rw [ancChain_cons_eq] at hp
        cases hp
        rw [hall, List.cons_append]
        rw [show ancestorsGo n ((pre.length, n) ::
            ((allFromL (pre.length + 1) c ++ allFromL pre.length rest') ++ rest)) buf =
          (buf.take pre.length ++ [n]).take pre.length from by simp [ancestorsGo]]
        rw [hbuf, List.take_left' rfl]
        simp
      · intro hp
        rw [ancChain_cons_eq] at hp
        cases hp
    · have hstep : ancestorsGo node (allFromL pre.length ((n, Tree.mk c) :: rest')
          ++ rest) buf =
          ancestorsGo node (allFromL (pre.length + 1) c ++
            (allFromL pre.length rest' ++ rest)) (pre ++ [n]) := by
        rw [hall, List.cons_append]
        rw [show ancestorsGo node ((pre.length, n) ::
            ((allFromL (pre.length + 1) c ++ allFromL pre.length rest') ++ rest)) buf =
          ancestorsGo node ((allFromL (pre.length + 1) c ++
            allFromL pre.length rest') ++ rest) (buf.take pre.length ++ [n]) from by
            simp [ancestorsGo, hn]]
        rw [hbuf, List.append_assoc]
      have hlen : (pre ++ [n]).length = pre.length + 1 := by simp
      have ihc' := ihc (pre ++ [n]) (pre ++ [n]) (allFromL pre.length rest' ++ rest)
        (by rw [List.take_length])
      rw [hlen] at ihc'
      rw [ancChain_cons_ne hn]
      cases ha : ancChain c node with
      | some p' =>
        constructor
        · intro p hp
          simp only [] at hp
          cases hp
          rw [hstep, ihc'.1 p' ha]
          simp
        · intro hp
          simp at hp
      | none =>
        obtain ⟨buf2, hbuf2, hres2⟩ := ihc'.2 ha
        have hbuf2' : buf2.take pre.length = pre := by
          have h2 : buf2.take pre.length =
              (buf2.take (pre.length + 1)).take pre.length := by
            rw [List.take_take]
            congr 1
            omega
          rw [h2, hbuf2, List.take_left' rfl]
        have ihr' := ihr pre buf2 rest hbuf2'
        constructor
        · intro p hp
          rw [hstep, hres2]
          exact ihr'.1 p hp
        · intro hp
          obtain ⟨buf3, hbuf3, hres3⟩ := ihr'.2 hp
          exact ⟨buf3, hbuf3, by rw [hstep, hres2, hres3]⟩

/-- The Go `Ancestors` walk returns exactly the DFS-first ancestor chain of
`node`, and the empty slice when `node` is absent. -/
theorem ancestors_spec (t : Tree N) (node : N) :
    (∀ p, ancChain t.children node = some p → t.ancestors node = p) ∧
    (ancChain t.children node = none → t.ancestors node = []) := by
  have h := ancestorsGo_sim node t.children [] [] [] (by simp)
  constructor
  · intro p hp
    have h1 := h.1 p hp
    rw [List.append_nil] at h1
    rw [show Tree.ancestors t node =
      ancestorsGo node (allFromL 0 t.children) [] from rfl]
    rw [show (([] : List N)).length = 0 from rfl] at h1
    rw [h1]
    simp
  · intro hp
    obtain ⟨buf2, _, hres⟩ := h.2 hp
    rw [List.append_nil] at hres
    rw [show Tree.ancestors t node =
      ancestorsGo node (allFromL 0 t.children) [] from rfl]
    rw [show (([] : List N)).length = 0 from rfl] at hres
    rw [hres]
    rfl

/-- Helper: `Ancestors(node)` equals the unique ancestor chain of `node` in a
collision-free forest. -/
theorem ancestors_eq_of_chain {t : Tree N} {node : N}
    (hw : wfb t.children = true) (hu : UniquePosL t.children) {p : List N}
    (hp : chainb t.children (p ++ [node]) = true) : t.ancestors node = p := by
  have hmem : node ∈ nodesL t.children := (mem_nodes_iff_chain hw node).mpr ⟨p, hp⟩
  obtain ⟨q, hq⟩ : ∃ q, ancChain t.children node = some q := by
    cases ha : ancChain t.children node with
    | none => exact absurd hmem (ancChain_none_iff.mp ha)
    | some q => exact ⟨q, rfl⟩
  have hcq := ancChain_chain hw hq
  rw [hu q p node hcq hp] at hq
  exact (ancestors_spec t node).1 p hq

/-- C5: in a forest without identity collisions, `Ancestors(target)`
concatenated with `[target]` is the unique root-to-target chain, and
`Ancestors(target)` is empty when `target` is a root or absent. -/
theorem c5_ancestors (t : Tree N) (node : N) (hw : wfb t.children = true)
    (hnd : (nodesL t.children).Nodup) :
    (∀ p, chainb t.children (p ++ [node]) = true →
      t.ancestors node ++ [node] = p ++ [node]) ∧
    (containsKey t.children node = true → t.ancestors node = []) ∧
    (node ∉ nodesL t.children → t.ancestors node = []) := by
  have hu := uniquePos_of_nodup hw hnd
  refine ⟨?_, ?_, ?_⟩
  · intro p hp
    rw [ancestors_eq_of_chain hw hu hp]
  · intro hc
    obtain ⟨u, hlu⟩ : ∃ u, lookup' t.children node = some u := by
      cases hl : lookup' t.children node with
      | none => rw [containsKey, hl] at hc; cases hc
      | some u => exact ⟨u, rfl⟩
    have hp : chainb t.children ([] ++ [node]) = true := by
      rw [List.nil_append, chain_cons]
      exact ⟨u, hlu, chain_nil _⟩
    exact ancestors_eq_of_chain hw hu hp
  · intro hmem
    exact (ancestors_spec t node).2 (ancChain_none_iff.mpr hmem)

/-- C5 witness: in the scenario forest, `Ancestors(E)` (node 4) is `[A, B]`
(`[0, 1]`), and `Ancestors(A)` for the root is empty. -/
theorem c5_ancestors_witness :
    (wfb exForest.children = true ∧ (nodesL exForest.children).Nodup) ∧
      exForest.ancestors 4 ++ [4] = [0, 1] ++ [4] := by
  have hw : wfb exForest.children = true := by
    rw [exForest_eq]
    simp [Tree.children, wfb, containsKey, lookup']
  have hnd : (nodesL exForest.children).Nodup := by
    rw [exForest_eq]
    show (nodesL [(0, Tree.mk [(1, Tree.mk [(3, Tree.mk []), (4, Tree.mk [])]),
      (2, Tree.mk [])])]).Nodup
    simp [nodesL]
  have hchain : chainb exForest.children ([0, 1] ++ [4]) = true := by
    rw [exForest_eq]
    show chainb [(0, Tree.mk [(1, Tree.mk [(3, Tree.mk []), (4, Tree.mk [])]),
      (2, Tree.mk [])])] [0, 1, 4] = true
    simp [chainb, lookup', Tree.children]
  exact ⟨⟨hw, hnd⟩, (c5_ancestors exForest 4 hw hnd).1 [0, 1] hchain⟩

/-! Family (C2): locating the node's level and grafting onto the chain. -/

/-- The children map reached by following a chain of keys. -/
def subAt : List (N × Tree N) → List N → Option (List (N × Tree N))
  | cs, [] => some cs
  | cs, n :: rest =>
      match lookup' cs n with
      | some t => subAt t.children rest
      | none => none

theorem chain_subAt : ∀ {p : List N} {cs csp : List (N × Tree N)} {node : N},
    subAt cs p = some csp → containsKey csp node = true →
    chainb cs (p ++ [node]) = true := by
  intro p
  induction p with
  | nil =>
    intro cs csp node hsub hck
    rw [show subAt cs [] = some cs from rfl] at hsub
    cases hsub
    obtain ⟨u, hu⟩ : ∃ u, lookup' cs node = some u := by
      cases hl : lookup' cs node with
      | none => rw [containsKey, hl] at hck; cases hck
      | some u => exact ⟨u, rfl⟩
    rw [List.nil_append, chain_cons]
    exact ⟨u, hu, chain_nil _⟩
  | cons a p' ih =>
    intro cs csp node hsub hck
    rw [show subAt cs (a :: p') =
      (match lookup' cs a with
       | some t => subAt t.children p'
       | none => none) from rfl] at hsub
    cases hl : lookup' cs a with
    | none => rw [hl] at hsub; cases hsub
    | some t =>
      rw [hl] at hsub
      rw [List.cons_append, chain_cons]
      exact ⟨t, hl, ih hsub hck⟩

theorem findTree_at : ∀ (cs : List (N × Tree N)), wfb cs = true → UniquePosL cs →
    ∀ (p : List N) (node : N) (csp : List (N × Tree N)),
      subAt cs p = some csp → containsKey csp node = true →
      Tree.findTree (Tree.mk cs) node = some (Tree.mk csp) := by
  have key : ∀ (s : Nat) (cs : List (N × Tree N)), sizeL cs = s →
      wfb cs = true → UniquePosL cs →
      ∀ (p : List N) (node : N) (csp : List (N × Tree N)),
        subAt cs p = some csp → containsKey csp node = true →
        Tree.findTree (Tree.mk cs) node = some (Tree.mk csp) := by
    intro s
    induction s using Nat.strong_induction_on with
    | _ s ih =>
      intro cs hsz hw hu p node csp hsub hck
      cases p with
      | nil =>
        rw [show subAt cs [] = some cs from rfl] at hsub
        cases hsub
        rw [show Tree.findTree (Tree.mk cs) node =
          (if containsKey cs node then some (Tree.mk cs) else findTreeL node cs)
          from rfl]
        rw [if_pos hck]
      | cons a p' =>
        rw [show subAt cs (a :: p') =
          (match lookup' cs a with
           | some t => subAt t.children p'
           | none => none) from rfl] at hsub
        cases hl : lookup' cs a with
        | none => rw [hl] at hsub; cases hsub
        | some t =>
        rw [hl] at hsub
        have hsub : subAt t.children p' = some csp := hsub
        have hchain : chainb cs ((a :: p') ++ [node]) = true := by
          apply chain_subAt _ hck
          rw [show subAt cs (a :: p') =
            (match lookup' cs a with
             | some u => subAt u.children p'
             | none => none) from rfl, hl]
          exact hsub
        have hctop : containsKey cs node = false := by
          cases hc : containsKey cs node with
          | false => rfl
          | true =>
            obtain ⟨u, hlu⟩ : ∃ u, lookup' cs node = some u := by
              cases hl2 : lookup' cs node with
              | none => rw [containsKey, hl2] at hc; cases hc
              | some u => exact ⟨u, rfl⟩
            have h0 : chainb cs ([] ++ [node]) = true := by
              rw [List.nil_append, chain_cons]
              exact ⟨u, hlu, chain_nil _⟩
            cases hu [] (a :: p') node h0 hchain
        rw [show Tree.findTree (Tree.mk cs) node =
          (if containsKey cs node then some (Tree.mk cs) else findTreeL node cs)
          from rfl]
        rw [hctop]
        rw [if_neg (by simp)]
        -- scan the entry list
        induction cs with
        | nil => rw [show lookup' ([] : List (N × Tree N)) a = none from rfl] at hl; cases hl
        | cons e rest ihscan =>
          obtain ⟨m, ⟨cm⟩⟩ := e
          rw [wfb_cons] at hw
          obtain ⟨hkey, hwm, hwr⟩ := hw
          rw [findTreeL_cons]
          by_cases hma : m = a
          · subst hma
            rw [show lookup' ((m, Tree.mk cm) :: rest) m = some (Tree.mk cm)
              from by simp [lookup']] at hl
            cases hl
            have hin := ih (sizeL cm)
              (by rw [← hsz]; simp only [sizeL]; omega) cm rfl hwm
              (uniquePos_sub_head hu) p' node csp hsub hck
            rw [show Tree.findTree (Tree.mk cm) node =
              (if containsKey cm node then some (Tree.mk cm) else findTreeL node cm)
              from rfl] at hin
            rw [hin]
          · rw [show lookup' ((m, Tree.mk cm) :: rest) a =
              if m = a then some (Tree.mk cm) else lookup' rest a from rfl,
              if_neg hma] at hl
            have hnotm : node ∉ nodesL cm := by
              intro hmem
              obtain ⟨r, hr⟩ := (mem_nodes_iff_chain hwm node).mp hmem
              have hlift : chainb ((m, Tree.mk cm) :: rest) ((m :: r) ++ [node]) = true := by
                rw [List.cons_append, chain_head_eq]
                exact hr
              cases hu (m :: r) (a :: p') node hlift hchain with
              | refl => exact hma rfl
            have hckm : containsKey cm node = false := by
              rw [containsKey_false_iff]
              intro hk
              exact hnotm (keysL_subset_nodesL hk)
            have hfm : findTreeL node cm = none := by
              rw [findTreeL_none_iff]
              intro m' u' hm' hx'
              exact hnotm (mem_nodesL_of_entry hm' hx')
            rw [hckm]
            rw [if_neg (by simp), hfm]
            -- continue in rest
            have hchainr : chainb rest ((a :: p') ++ [node]) = true := by
              have h' := hchain
              rw [List.cons_append, chain_head_ne (fun he => hma he.symm)] at h'
              rw [List.cons_append]
              exact h'
            have hctopr : containsKey rest node = false := by
              cases hc : containsKey rest node with
              | false => rfl
              | true =>
                obtain ⟨u, hlu⟩ : ∃ u, lookup' rest node = some u := by
                  cases hl2 : lookup' rest node with
                  | none => rw [containsKey, hl2] at hc; cases hc
                  | some u => exact ⟨u, rfl⟩
                have h0 : chainb rest ([] ++ [node]) = true := by
                  rw [List.nil_append, chain_cons]
                  exact ⟨u, hlu, chain_nil _⟩
                have h0' := chain_cons_of_rest hkey h0 (u := Tree.mk cm)
                cases hu [] (a :: p') node h0'
                  hchain
            have hres := ih (sizeL rest)
              (by rw [← hsz]; simp only [sizeL]; omega) rest rfl hwr
              (uniquePos_rest hkey hu) (a :: p') node csp
              (by rw [show subAt rest (a :: p') =
                (match lookup' rest a with
                 | some u => subAt u.children p'
                 | none => none) from rfl, hl]
                  exact hsub)
              hck
            rw [show Tree.findTree (Tree.mk rest) node =
              (if containsKey rest node then some (Tree.mk rest) else findTreeL node rest)
              from rfl, hctopr] at hres
            rw [if_neg (by simp)] at hres
            exact hres
  exact fun cs => key (sizeL cs) cs rfl

theorem Tree.mk_children (t : Tree N) : Tree.mk t.children = t := by
  cases t
  rfl

/-- The single-identity chain built by `Add` on an empty forest. -/
def chainOf : List N → Tree N
  | [] => Tree.mk []
  | a :: r => Tree.mk [(a, chainOf r)]

/-- A single-identity chain ending with `node` bound to the subtree `sub`. -/
def chainWith : List N → N → Tree N → Tree N
  | [], node, sub => Tree.mk [(node, sub)]
  | a :: r, node, sub => Tree.mk [(a, chainWith r node sub)]

theorem add_empty_chain : ∀ p : List N, (Tree.mk [] : Tree N).add p = chainOf p := by
  intro p
  induction p with
  | nil => rfl
  | cons a r ih => simp [Tree.add, Tree.children, lookup', setEntry, chainOf, ih]

theorem nodesL_chainOf : ∀ q : List N, nodesL (chainOf q).children = q := by
  intro q
  induction q with
  | nil => simp [chainOf, Tree.children, nodesL]
  | cons x q' ih =>
    rw [show (chainOf (x :: q')).children = [(x, chainOf q')] from rfl]
    rw [show ([(x, chainOf q')] : List (N × Tree N)) =
      [(x, Tree.mk (chainOf q').children)] from by rw [Tree.mk_children]]
    rw [nodesL_cons, ih]
    simp [nodesL]

theorem attach_chain (node : N) (sub : Tree N) :
    ∀ (p : List N) (parent : N), p.Nodup → p.getLast? = some parent →
      attach parent node sub (chainOf p) = chainWith p node sub := by
  intro p
  induction p with
  | nil =>
    intro parent _ h
    simp at h
  | cons a r ih =>
    intro parent hnd hlast
    cases r with
    | nil =>
      rw [show ([a] : List N).getLast? = some a from rfl] at hlast
      cases hlast
      show attach a node sub (Tree.mk [(a, Tree.mk [])]) =
        Tree.mk [(a, Tree.mk [(node, sub)])]
      rw [show attach a node sub (Tree.mk [(a, Tree.mk [])]) =
        if containsKey [(a, Tree.mk [])] a then
          Tree.mk (setEntry [(a, Tree.mk [])] a
            (withChild ((lookup' [(a, Tree.mk [])] a).getD (Tree.mk [])) node sub))
        else Tree.mk (attachL a node sub [(a, Tree.mk [])]) from rfl]
      rw [if_pos (show containsKey [(a, Tree.mk [])] a = true from by
        simp [containsKey, lookup'])]
      simp [lookup', setEntry, withChild, Tree.children]
    | cons b r' =>
      rw [List.getLast?_cons_cons] at hlast
      have hparent_mem : parent ∈ b :: r' := List.mem_of_getLast?_eq_some hlast
      have hna : a ∉ b :: r' := (List.nodup_cons.mp hnd).1
      have hap : a ≠ parent := fun he => hna (he ▸ hparent_mem)
      have hndr : (b :: r').Nodup := (List.nodup_cons.mp hnd).2
      have hlkc : lookup' [(a, chainOf (b :: r'))] parent = none := by
        rw [show lookup' [(a, chainOf (b :: r'))] parent =
          if a = parent then some (chainOf (b :: r'))
          else lookup' ([] : List (N × Tree N)) parent from rfl, if_neg hap]
        rfl
      have hcont : containsKey [(a, chainOf (b :: r'))] parent = false := by
        rw [containsKey, hlkc]
        rfl
      rw [show attach parent node sub (chainOf (a :: b :: r')) =
        if containsKey [(a, chainOf (b :: r'))] parent then
          Tree.mk (setEntry [(a, chainOf (b :: r'))] parent
            (withChild ((lookup' [(a, chainOf (b :: r'))] parent).getD (Tree.mk []))
              node sub))
        else Tree.mk (attachL parent node sub [(a, chainOf (b :: r'))]) from rfl]
      rw [hcont]
      rw [if_neg (by simp)]
      cases r' with
      | nil =>
        rw [show ([b] : List N).getLast? = some b from rfl] at hlast
        cases hlast
        show Tree.mk (attachL parent node sub [(a, Tree.mk [(parent, Tree.mk [])])]) =
          Tree.mk [(a, Tree.mk [(parent, Tree.mk [(node, sub)])])]
        rw [show attachL parent node sub [(a, Tree.mk [(parent, Tree.mk [])])] =
          if containsKey [(parent, Tree.mk [])] parent then
            (a, Tree.mk (setEntry [(parent, Tree.mk [])] parent
              (withChild ((lookup' [(parent, Tree.mk [])] parent).getD (Tree.mk []))
                node sub))) :: []
          else
            match findTreeL parent [(parent, Tree.mk [])] with
            | some _ =>
                (a, Tree.mk (attachL parent node sub [(parent, Tree.mk [])])) :: []
            | none => (a, Tree.mk [(parent, Tree.mk [])]) :: attachL parent node sub []
          from by simp [attachL]]
        rw [if_pos (show containsKey [(parent, Tree.mk [])] parent = true from by
          simp [containsKey, lookup'])]
        simp [lookup', setEntry, withChild, Tree.children]
      | cons c r'' =>
        have hlast' := hlast
        rw [List.getLast?_cons_cons] at hlast'
        have hpmem' : parent ∈ c :: r'' := List.mem_of_getLast?_eq_some hlast'
        have hbp : b ≠ parent := fun he =>
          ((List.nodup_cons.mp hndr).1) (he ▸ hpmem')
        have hlkc2 : lookup' [(b, chainOf (c :: r''))] parent = none := by
          rw [show lookup' [(b, chainOf (c :: r''))] parent =
            if b = parent then some (chainOf (c :: r''))
            else lookup' ([] : List (N × Tree N)) parent from rfl, if_neg hbp]
          rfl
        have hcont2 : containsKey [(b, chainOf (c :: r''))] parent = false := by
          rw [containsKey, hlkc2]
          rfl
        have hfsome : findTreeL parent [(b, chainOf (c :: r''))] ≠ none := by
          intro hnone
          have := findTreeL_none_iff.mp hnone b (chainOf (c :: r''))
            (List.mem_cons_self _ _)
          rw [nodesL_chainOf] at this
          exact this hpmem'
        have hch : chainOf (b :: c :: r'') = Tree.mk [(b, chainOf (c :: r''))] := rfl
        have hattL : attachL parent node sub [(a, chainOf (b :: c :: r''))] =
            (a, Tree.mk (attachL parent node sub [(b, chainOf (c :: r''))])) :: [] := by
          rw [hch]
          rw [show attachL parent node sub [(a, Tree.mk [(b, chainOf (c :: r''))])] =
            if containsKey [(b, chainOf (c :: r''))] parent then
              (a, Tree.mk (setEntry [(b, chainOf (c :: r''))] parent
                (withChild ((lookup' [(b, chainOf (c :: r''))] parent).getD
                  (Tree.mk [])) node sub))) :: []
            else
              match findTreeL parent [(b, chainOf (c :: r''))] with
              | some _ =>
                  (a, Tree.mk (attachL parent node sub [(b, chainOf (c :: r''))])) :: []
              | none =>
                  (a, Tree.mk [(b, chainOf (c :: r''))]) :: attachL parent node sub []
            from by simp [attachL]]
          rw [hcont2]
          rw [if_neg (by simp)]
          cases hfv : findTreeL parent [(b, chainOf (c :: r''))] with
          | none => exact absurd hfv hfsome
          | some w => rfl
        rw [hattL]
        have hih := ih parent hndr hlast
        rw [show attach parent node sub (chainOf (b :: c :: r'')) =
          if containsKey [(b, chainOf (c :: r''))] parent then
            Tree.mk (setEntry [(b, chainOf (c :: r''))] parent
              (withChild ((lookup' [(b, chainOf (c :: r''))] parent).getD (Tree.mk []))
                node sub))
          else Tree.mk (attachL parent node sub [(b, chainOf (c :: r''))])
          from rfl] at hih
        rw [hcont2] at hih
        rw [if_neg (by simp)] at hih
        rw [show chainWith (a :: b :: c :: r'') node sub =
          Tree.mk [(a, chainWith (b :: c :: r'') node sub)] from rfl]
        rw [← hih]

/-- C2 counterexample: when the target is a root, `Family` returns the whole
forest, not just the target's subtree: on `{0:{}, 1:{}}`, `Family(0)` still
contains the sibling 1, which is not a descendant of 0. -/
theorem c2_counterexample :
    (Tree.mk [(0, Tree.mk []), (1, Tree.mk [])] : Tree Nat).family 0 =
      Tree.mk [(0, Tree.mk []), (1, Tree.mk [])] ∧
    1 ∈ nodesL ((Tree.mk [(0, Tree.mk []), (1, Tree.mk [])] : Tree Nat).family
      0).children := by
  have h1 : (Tree.mk [(0, Tree.mk []), (1, Tree.mk [])] : Tree Nat).family 0 =
      Tree.mk [(0, Tree.mk []), (1, Tree.mk [])] := by
    rw [Tree.family]
    rw [if_pos (show containsKey
      (Tree.mk [(0, Tree.mk []), (1, Tree.mk [])] : Tree Nat).children 0 = true from
      by decide)]
  refine ⟨h1, ?_⟩
  rw [h1]
  rw [show (Tree.mk [(0, Tree.mk []), (1, Tree.mk [])] : Tree Nat).children =
    [(0, Tree.mk []), (1, Tree.mk [])] from rfl]
  simp [nodesL]

/-- C2 amended: in a collision-free forest, if the target is a top-level root
`Family` returns the whole receiver forest unchanged (all roots, including the
target's siblings); if the target sits at depth at least 1 under the ancestor
chain `p`, `Family` returns exactly the single-identity chain `p` with the
target's complete original subtree attached below the last ancestor — all
sibling subtrees pruned. -/
theorem c2_family_amended (t : Tree N) (node : N) (hw : wfb t.children = true)
    (hnd : (nodesL t.children).Nodup) :
    (containsKey t.children node = true → t.family node = t) ∧
    (∀ p csp tn, p ≠ [] → subAt t.children p = some csp →
      lookup' csp node = some tn → t.family node = chainWith p node tn) := by
  have hu := uniquePos_of_nodup hw hnd
  constructor
  · intro hc
    rw [Tree.family, if_pos hc]
  · intro p csp tn hpne hsub hlk
    have hck : containsKey csp node = true := by
      rw [containsKey, hlk]
      rfl
    have hchain : chainb t.children (p ++ [node]) = true := chain_subAt hsub hck
    have hctop : containsKey t.children node = false := by
      cases hc : containsKey t.children node with
      | false => rfl
      | true =>
        obtain ⟨u, hlu⟩ : ∃ u, lookup' t.children node = some u := by
          cases hl2 : lookup' t.children node with
          | none => rw [containsKey, hl2] at hc; cases hc
          | some u => exact ⟨u, rfl⟩
        have h0 : chainb t.children ([] ++ [node]) = true := by
          rw [List.nil_append, chain_cons]
          exact ⟨u, hlu, chain_nil _⟩
        exact absurd (hu [] p node h0 hchain).symm hpne
    have hanc : t.ancestors node = p := ancestors_eq_of_chain hw hu hchain
    have hfind : t.findTree node = some (Tree.mk csp) := by
      have := findTree_at t.children hw hu p node csp hsub hck
      rw [Tree.mk_children] at this
      exact this
    obtain ⟨parent, hparent⟩ : ∃ parent, p.getLast? = some parent := by
      cases hgl : p.getLast? with
      | none => exact absurd (List.getLast?_eq_none_iff.mp hgl) hpne
      | some x => exact ⟨x, rfl⟩
    have hnodup : (p ++ [node]).Nodup := chain_nodup_of_unique hu hchain
    rw [Tree.family, if_neg (by rw [hctop]; simp)]
    rw [hanc, hparent]
    simp only []
    rw [hfind]
    rw [show ((some (Tree.mk csp)).getD (Tree.mk [])).children = csp from rfl]
    rw [hlk]
    rw [show (some tn).getD (Tree.mk []) = tn from rfl]
    rw [add_empty_chain]
    exact attach_chain node tn p parent (List.nodup_append.mp hnodup).1 hparent

/-- C2 amended, witness: in the scenario forest, `Family(B)` (node 1, ancestor
chain `[A] = [0]`) is exactly `A → B → {D, E}` with `C` pruned. -/
theorem c2_family_amended_witness :
    ([0] ≠ ([] : List Nat)) ∧
      exForest.family 1 =
        chainWith [0] 1 (Tree.mk [(3, Tree.mk []), (4, Tree.mk [])]) := by
  have hw : wfb exForest.children = true := by
    rw [exForest_eq]
    simp [Tree.children, wfb, containsKey, lookup']
  have hnd : (nodesL exForest.children).Nodup := by
    rw [exForest_eq]
    show (nodesL [(0, Tree.mk [(1, Tree.mk [(3, Tree.mk []), (4, Tree.mk [])]),
      (2, Tree.mk [])])]).Nodup
    simp [nodesL]
  have hsub : subAt exForest.children [0] =
      some [(1, Tree.mk [(3, Tree.mk []), (4, Tree.mk [])]), (2, Tree.mk [])] := by
    rw [exForest_eq]
    rfl
  have hlk : lookup' [(1, Tree.mk [(3, Tree.mk []), (4, Tree.mk [])]),
      (2, Tree.mk [])] 1 = some (Tree.mk [(3, Tree.mk []), (4, Tree.mk [])]) := rfl
  exact ⟨by decide,
    (c2_family_amended exForest 1 hw hnd).2 [0] _ _ (by decide) hsub hlk⟩

end gocore
